import Mathlib

/-!
A verification development for `tokenline.c`, a byte-streamed interactive
command line editor with a grammar-driven tokenizer.

Bytes are modelled as `Nat` (the C code only ever stores values 0..255).
C strings are modelled as lists of bytes without the terminating NUL;
a pointer into the line buffer is modelled as an offset, and reading the
C string at that offset takes bytes up to the first 0.

The repository ships only `tokenline.c`; the header `tokenline.h` with the
size constants, the `TARG_*` argument-type constants and the struct layouts
is not part of the sources, so those are modelled from the spec (see the
doc comments below).
-/

/-- Modelled from the spec: `tokenline.h` is missing from the sources; the
spec gives the line buffer capacity `MAX_LINE` as 128. -/
def TL_MAX_LINE_LEN : Nat := 128

/-- Modelled from the spec: `tokenline.h` is missing from the sources; the
spec gives the maximum word count `MAX_WORDS` as 16. -/
def TL_MAX_WORDS : Nat := 16

/-- Modelled from the spec: `tokenline.h` is missing from the sources; the
spec gives the history ring capacity `MAX_HIST` as 1024. -/
def TL_MAX_HISTORY_SIZE : Nat := 1024

/-- Modelled from the spec: `tokenline.h` is missing from the sources; the
spec gives the escape buffer capacity `MAX_ESCAPE` as 8. -/
def TL_MAX_ESCAPE_LEN : Nat := 8

/-- Modelled from the spec: the argument-type tags
`{NONE, INTEGER, FLOAT, STRING, TOKEN, HELP_ONLY}` from the missing header.
`NONE` must be 0 (the code tests `arg_type` for truthiness); the others are
distinct nonzero small integers. -/
def TARG_INT : Nat := 1

/-- Modelled from the spec: the `FLOAT` argument-type tag. -/
def TARG_FLOAT : Nat := 2

/-- Modelled from the spec: the `STRING` argument-type tag. -/
def TARG_STRING : Nat := 3

/-- Modelled from the spec: the `TOKEN` argument-type tag. -/
def TARG_TOKEN : Nat := 4

/-- Modelled from the spec: the `HELP_ONLY` argument-type tag
(`TARG_HELP` in the code). -/
def TARG_HELP : Nat := 5

/-- Reading the C string stored at offset `off` of buffer `bs`:
the bytes from `off` up to (excluding) the first 0. -/
def readCStr (bs : List Nat) (off : Nat) : List Nat :=
  (bs.drop off).takeWhile (fun b => b ≠ 0)

/-! ## Line splitter (`split_line`) and unsplit (`unsplit_line`)

`split_line` iterates over `buf[0..buf_len)` with a two-state machine
(state 1: looking for a word; state 2: inside a word) and a `quoted` flag,
overwriting word terminators with 0 and recording word start offsets.  The
loop runs while `i < buf_len && num_words < TL_MAX_WORDS`.  We model the
portion `buf[0..buf_len)` of the buffer as a plain list of bytes. -/

/-- Result of the `split_line` scanning loop: the transformed bytes, the
recorded word start offsets, the word count, and the `quoted` flag at loop
exit. -/
structure SplitRes where
  buf : List Nat
  words : List Nat
  nw : Nat
  quoted : Bool
deriving Repr, DecidableEq

/-- The scanning loop of `split_line`.  `state` is the C `state` variable
(1 = looking for a word, anything else behaves as 2 = in a word), `quoted`
the C `quoted` flag, `nw` the current `*num_words`, `i` the current index.
When `TL_MAX_WORDS ≤ nw` the C loop guard fails and the rest of the buffer
is left untouched. -/
def splitGo (state : Nat) (quoted : Bool) (nw i : Nat) :
    List Nat → SplitRes
  | [] => ⟨[], [], nw, quoted⟩
  | b :: bs =>
    if TL_MAX_WORDS ≤ nw then ⟨b :: bs, [], nw, quoted⟩
    else if state = 1 then
      -- Looking for a new word.
      if b = 32 then
        let r := splitGo 1 quoted nw (i + 1) bs
        { r with buf := 32 :: r.buf }
      else
        let q := if b = 34 then true else quoted
        let r := splitGo 2 q (nw + 1) (i + 1) bs
        { r with buf := b :: r.buf,
                 words := (i + (if q then 1 else 0)) :: r.words }
    else
      -- In a word.
      if quoted = true ∧ b = 34 then
        let r := splitGo 1 false nw (i + 1) bs
        { r with buf := 0 :: r.buf }
      else if quoted = false ∧ b = 32 then
        let r := splitGo 1 quoted nw (i + 1) bs
        { r with buf := 0 :: r.buf }
      else
        let r := splitGo state quoted nw (i + 1) bs
        { r with buf := b :: r.buf }

/-- `unsplit_line`'s scan: every `"` sets the `quoted` flag; every 0 byte
becomes `"` (clearing the flag) when the flag is set, else a space. -/
def unsplitGo (quoted : Bool) : List Nat → List Nat
  | [] => []
  | b :: bs =>
    if b = 34 then 34 :: unsplitGo true bs
    else if b = 0 then
      if quoted then 34 :: unsplitGo false bs
      else 32 :: unsplitGo quoted bs
    else b :: unsplitGo quoted bs

/-- `unsplit_line` on the line contents `buf[0..buf_len)`.  (The final
`tl->buf[tl->buf_len] = 0` re-terminates the buffer; in this list model the
terminator is outside the represented range.) -/
def unsplit_line (bs : List Nat) : List Nat := unsplitGo false bs

/-- `split_line` on the line contents: run the scanning loop; on an open
quote at the end, or on hitting `TL_MAX_WORDS`, restore the buffer via
`unsplit_line` and fail.  Returns (buffer contents, word offsets,
num_words, success flag). -/
def split_line (bs : List Nat) : List Nat × List Nat × Nat × Bool :=
  let r := splitGo 1 false 0 0 bs
  if r.quoted then (unsplit_line r.buf, r.words, r.nw, false)
  else if r.nw = TL_MAX_WORDS then (unsplit_line r.buf, r.words, r.nw, false)
  else (r.buf, r.words, r.nw, true)

/-- The predicate on line contents under which split-then-unsplit is the
identity: running `split_line`'s state machine never meets a `"` while
inside an unquoted word.  (A `"` inside an unquoted word is kept verbatim
by `split_line`, but sets `unsplit_line`'s `quoted` flag, which then turns
the next word-terminating 0 back into `"` instead of a space.) -/
def cleanGo (state : Nat) (quoted : Bool) : List Nat → Bool
  | [] => true
  | b :: bs =>
    if state = 1 then
      if b = 32 then cleanGo 1 quoted bs
      else cleanGo 2 (if b = 34 then true else quoted) bs
    else
      if quoted = true ∧ b = 34 then cleanGo 1 false bs
      else if quoted = false ∧ b = 34 then false
      else if quoted = false ∧ b = 32 then cleanGo 1 quoted bs
      else cleanGo state quoted bs

/-- A byte sequence with no interior NUL on which no `"` occurs inside an
unquoted word. -/
def quoteClean (bs : List Nat) : Prop := 0 ∉ bs ∧ cleanGo 1 false bs = true

instance (bs : List Nat) : Decidable (quoteClean bs) := by
  unfold quoteClean; infer_instance

/-- `unsplitGo` only rewrites 0 bytes: on a NUL-free list it is the
identity. -/
theorem unsplitGo_noNul (q : Bool) (bs : List Nat) (h : 0 ∉ bs) :
    unsplitGo q bs = bs := by
  induction bs generalizing q with
  | nil => rfl
  | cons b bs ih =>
    have hb : b ≠ 0 := fun hb => h (hb ▸ List.mem_cons_self b bs)
    have hbs : 0 ∉ bs := fun hm => h (List.mem_cons_of_mem b hm)
    by_cases h34 : b = 34
    · simp [unsplitGo, h34, ih true hbs]
    · simp [unsplitGo, h34, hb, ih q hbs]

/-- Core restoration lemma: if the buffer has no NUL bytes and the split
state machine never meets a `"` inside an unquoted word, then `unsplitGo`
(with its flag agreeing with split's `quoted` flag) undoes the rewriting
done by `splitGo`, for every machine state. -/
theorem unsplit_splitGo (bs : List Nat) :
    ∀ state quoted nw i, 0 ∉ bs → cleanGo state quoted bs = true →
      unsplitGo quoted (splitGo state quoted nw i bs).buf = bs := by
  induction bs with
  | nil => intro state quoted nw i _ _; rfl
  | cons b bs ih =>
    intro state quoted nw i hnul hclean
    have hb : b ≠ 0 := fun hb => hnul (hb ▸ List.mem_cons_self b bs)
    have hbs : 0 ∉ bs := fun hm => hnul (List.mem_cons_of_mem b hm)
    by_cases hcap : TL_MAX_WORDS ≤ nw
    · -- early loop exit: buffer left untouched
      simp only [splitGo, if_pos hcap]
      exact unsplitGo_noNul quoted (b :: bs) hnul
    · by_cases hst : state = 1
      · subst hst
        by_cases hsp : b = 32
        · -- state 1, space: byte kept
          subst hsp
          simp only [splitGo, cleanGo, if_neg hcap] at hclean ⊢
          simp only [reduceIte] at hclean ⊢
          simp [unsplitGo, ih 1 quoted nw (i + 1) hbs hclean]
        · -- state 1, word opens
          by_cases h34 : b = 34
          · subst h34
            simp only [splitGo, cleanGo, if_neg hcap, reduceIte] at hclean ⊢
            simp [unsplitGo, ih 2 true (nw + 1) (i + 1) hbs hclean]
          · simp only [splitGo, cleanGo, if_neg hcap] at hclean ⊢
            simp only [reduceIte, if_neg hsp, if_neg h34] at hclean ⊢
            simp [unsplitGo, h34, hb, ih 2 quoted (nw + 1) (i + 1) hbs hclean]
      · -- in a word (any state other than 1 behaves as state 2)
        cases quoted with
        | true =>
          by_cases h34 : b = 34
          · -- closing quote: rewritten to 0, unsplit flag restores it
            subst h34
            simp only [splitGo, cleanGo, if_neg hcap, if_neg hst, reduceIte]
              at hclean ⊢
            simp [unsplitGo, ih 1 false nw (i + 1) hbs hclean]
          · -- inside a quoted word: byte kept
            simp only [splitGo, cleanGo, if_neg hcap, if_neg hst] at hclean ⊢
            simp only [h34, and_true, and_false, true_and, false_and,
              if_false, if_true, reduceIte] at hclean ⊢
            simp [unsplitGo, h34, hb, ih state true nw (i + 1) hbs hclean]
        | false =>
          by_cases h34 : b = 34
          · -- a quote inside an unquoted word: excluded by cleanliness
            exfalso
            subst h34
            simp only [cleanGo, if_neg hst, reduceIte] at hclean
            exact absurd hclean (by simp)
          · by_cases hsp : b = 32
            · -- unquoted word ends: rewritten to 0, flag clear restores space
              subst hsp
              simp only [splitGo, cleanGo, if_neg hcap, if_neg hst, reduceIte]
                at hclean ⊢
              simp [unsplitGo, ih 1 false nw (i + 1) hbs hclean]
            · -- plain byte inside an unquoted word: kept
              simp only [splitGo, cleanGo, if_neg hcap, if_neg hst] at hclean ⊢
              simp only [h34, hsp, and_true, and_false, true_and, false_and,
                if_false, if_true, reduceIte] at hclean ⊢
              simp [unsplitGo, h34, hb, ih state false nw (i + 1) hbs hclean]

/-- `splitGo` preserves the buffer length. -/
theorem splitGo_length (bs : List Nat) :
    ∀ state quoted nw i, (splitGo state quoted nw i bs).buf.length = bs.length := by
  induction bs with
  | nil => intro state quoted nw i; rfl
  | cons b bs ih =>
    intro state quoted nw i
    by_cases hcap : TL_MAX_WORDS ≤ nw
    · simp [splitGo, hcap]
    · by_cases hst : state = 1
      · by_cases hsp : b = 32
        · simp [splitGo, hcap, hst, hsp, ih]
        · simp [splitGo, hcap, hst, hsp, ih]
      · by_cases hc1 : quoted = true ∧ b = 34
        · simp [splitGo, hcap, hst, hc1, ih]
        · by_cases hc2 : quoted = false ∧ b = 32
          · simp [splitGo, hcap, hst, hc1, hc2, ih]
          · simp [splitGo, hcap, hst, hc1, hc2, ih]

/-- `unsplitGo` preserves the buffer length. -/
theorem unsplitGo_length (bs : List Nat) :
    ∀ quoted, (unsplitGo quoted bs).length = bs.length := by
  induction bs with
  | nil => intro quoted; rfl
  | cons b bs ih =>
    intro quoted
    by_cases h34 : b = 34
    · simp [unsplitGo, h34, ih]
    · by_cases h0 : b = 0
      · by_cases hq : quoted <;> simp [unsplitGo, h34, h0, hq, ih]
      · simp [unsplitGo, h34, h0, ih]

/-- C1, counterexample.  The byte sequence `a"b c` (a double quote inside an
unquoted word) is accepted by `split_line` (two words, no open quote), yet
`unsplit_line` does not restore it: the space that terminated the first
word comes back as `"`, giving `a"b"c`. -/
theorem C1_cex :
    (split_line [97, 34, 98, 32, 99]).2.2.2 = true ∧
    unsplit_line (split_line [97, 34, 98, 32, 99]).1 = [97, 34, 98, 34, 99] ∧
    [97, 34, 98, 34, 99] ≠ [97, 34, 98, 32, 99] := by decide

/-- C1, amended: for every NUL-free byte sequence that `split_line` accepts
and in which no double quote occurs inside an unquoted word, running
`split_line` and then `unsplit_line` restores the line buffer exactly, and
both operations preserve the buffer length (so `buf_len`, which neither
function writes, still describes the line). -/
theorem C1_split_unsplit (bs : List Nat) (hclean : quoteClean bs)
    (haccept : (split_line bs).2.2.2 = true) :
    unsplit_line (split_line bs).1 = bs ∧
    (split_line bs).1.length = bs.length ∧
    (unsplit_line (split_line bs).1).length = bs.length := by
  obtain ⟨hnul, hcg⟩ := hclean
  have hrestore := unsplit_splitGo bs 1 false 0 0 hnul hcg
  have hlen := splitGo_length bs 1 false 0 0
  cases hqb : (splitGo 1 false 0 0 bs).quoted with
  | true => unfold split_line at haccept; simp [hqb] at haccept
  | false =>
    by_cases hnw : (splitGo 1 false 0 0 bs).nw = TL_MAX_WORDS
    · unfold split_line at haccept; simp [hqb, hnw] at haccept
    · have hsl : split_line bs = ((splitGo 1 false 0 0 bs).buf,
          (splitGo 1 false 0 0 bs).words, (splitGo 1 false 0 0 bs).nw, true) := by
        unfold split_line; simp [hqb, hnw]
      rw [hsl]
      exact ⟨hrestore, hlen, by rw [unsplit_line, unsplitGo_length, hlen]⟩

/-- C1, witness: the concrete line `ab "cd e" f` is quote-clean and
accepted, and the theorem applies to it. -/
theorem C1_split_unsplit_witness :
    quoteClean [97, 98, 32, 34, 99, 100, 32, 101, 34, 32, 102] ∧
    (split_line [97, 98, 32, 34, 99, 100, 32, 101, 34, 32, 102]).2.2.2 = true ∧
    unsplit_line (split_line [97, 98, 32, 34, 99, 100, 32, 101, 34, 32, 102]).1 =
      [97, 98, 32, 34, 99, 100, 32, 101, 34, 32, 102] :=
  ⟨by decide, by decide,
    (C1_split_unsplit [97, 98, 32, 34, 99, 100, 32, 101, 34, 32, 102]
      (by decide) (by decide)).1⟩

/-! ## Token data model and the token matcher (`find_token`)

A `t_token` entry has a token ID, an argument type, an optional subtoken
list (the C `NULL` pointer is modelled by the empty list, matching the C
truthiness test `if (…subtokens)`), and an optional help string.  A token
list (`t_token *`) is a NUL-sentinel-terminated array in C; we model it as
the list of its real entries.  The token dictionary `t_token_dict *` is
indexed directly by token ID (`token_dict[token].tokenstr`); we model it as
a list of display strings indexed by ID. -/

structure TToken where
  token : Nat
  arg_type : Nat
  subtokens : List TToken
  help : Option (List Nat)

/-- The all-zero token entry (the C sentinel). -/
def dummyTok : TToken := ⟨0, 0, [], none⟩

/-- `token_dict[t].tokenstr`. -/
def tokenstrOf (dict : List (List Nat)) (t : Nat) : List Nat := dict.getD t []

/-- The first loop of `find_token`: return the index of the first entry
whose display string compares equal (`strcmp`) to `word`. -/
def findExact (dict : List (List Nat)) (word : List Nat) :
    Nat → List TToken → Option Nat
  | _, [] => none
  | i, tok :: toks =>
    if tokenstrOf dict tok.token = word then some i
    else findExact dict word (i + 1) toks

/-- The second loop of `find_token`: scan for entries of which `word` is a
strict prefix (the C skips entries with `strlen(word) >= strlen(tokenstr)`
and compares the first `strlen(word)` bytes); a second match returns -1
(here `none`), a unique match is carried in `acc`. -/
def findPart (dict : List (List Nat)) (word : List Nat) :
    Nat → Option Nat → List TToken → Option Nat
  | _, acc, [] => acc
  | i, acc, tok :: toks =>
    if (tokenstrOf dict tok.token).length ≤ word.length then
      findPart dict word (i + 1) acc toks
    else if (tokenstrOf dict tok.token).take word.length = word then
      match acc with
      | some _ => none
      | none => findPart dict word (i + 1) (some i) toks
    else findPart dict word (i + 1) acc toks

/-- `find_token`: exact match first, then unique-partial match.  The C
returns an index or -1; we return `Option Nat`. -/
def find_token (tokens : List TToken) (dict : List (List Nat))
    (word : List Nat) : Option Nat :=
  match findExact dict word 0 tokens with
  | some i => some i
  | none => findPart dict word 0 none tokens

/-- Entry `i` of a token list (out of range gives the sentinel). -/
def entryAt (toks : List TToken) (i : Nat) : TToken := toks.getD i dummyTok

/-- `word` compares equal to the display string of entry `tk`. -/
def IsExact (dict : List (List Nat)) (word : List Nat) (tk : TToken) : Prop :=
  tokenstrOf dict tk.token = word

/-- `word` is a strict prefix of the display string of entry `tk` (the
condition of the second `find_token` loop). -/
def IsPre (dict : List (List Nat)) (word : List Nat) (tk : TToken) : Prop :=
  word.length < (tokenstrOf dict tk.token).length ∧
    (tokenstrOf dict tk.token).take word.length = word

instance (dict : List (List Nat)) (word : List Nat) (tk : TToken) :
    Decidable (IsExact dict word tk) := by unfold IsExact; infer_instance

instance (dict : List (List Nat)) (word : List Nat) (tk : TToken) :
    Decidable (IsPre dict word tk) := by unfold IsPre; infer_instance

theorem findExact_none_iff (dict : List (List Nat)) (word : List Nat) :
    ∀ (toks : List TToken) (k : Nat),
      findExact dict word k toks = none ↔
        ∀ j, j < toks.length → ¬IsExact dict word (entryAt toks j) := by
  intro toks
  induction toks with
  | nil => intro k; simp [findExact]
  | cons t toks ih =>
    intro k
    by_cases he : tokenstrOf dict t.token = word
    · simp only [findExact, if_pos he]
      constructor
      · intro h; exact absurd h (by simp)
      · intro h; exact absurd he (h 0 (by simp))
    · simp only [findExact, if_neg he, ih (k + 1)]
      constructor
      · intro h j hj
        match j with
        | 0 => simpa [entryAt, IsExact] using he
        | j + 1 =>
          have : j < toks.length := by simpa [List.length_cons] using hj
          simpa [entryAt] using h j this
      · intro h j hj
        have := h (j + 1) (by simpa [List.length_cons] using hj)
        simpa [entryAt] using this

theorem findExact_some_spec (dict : List (List Nat)) (word : List Nat) :
    ∀ (toks : List TToken) (k r : Nat),
      findExact dict word k toks = some r →
        ∃ j, r = k + j ∧ j < toks.length ∧ IsExact dict word (entryAt toks j) := by
  intro toks
  induction toks with
  | nil => intro k r h; simp [findExact] at h
  | cons t toks ih =>
    intro k r h
    by_cases he : tokenstrOf dict t.token = word
    · simp only [findExact, if_pos he, Option.some.injEq] at h
      exact ⟨0, by omega, by simp [List.length_cons], by simpa [entryAt, IsExact] using he⟩
    · simp only [findExact, if_neg he] at h
      obtain ⟨j, hr, hj, hx⟩ := ih (k + 1) r h
      exact ⟨j + 1, by omega, by simp [List.length_cons]; omega,
        by simpa [entryAt] using hx⟩

theorem findExact_first (dict : List (List Nat)) (word : List Nat) :
    ∀ (toks : List TToken) (k i : Nat),
      i < toks.length → IsExact dict word (entryAt toks i) →
      (∀ j, j < i → ¬IsExact dict word (entryAt toks j)) →
      findExact dict word k toks = some (k + i) := by
  intro toks
  induction toks with
  | nil => intro k i hi; simp [List.length_nil] at hi
  | cons t toks ih =>
    intro k i hi hx hfirst
    match i with
    | 0 =>
      have he : tokenstrOf dict t.token = word := by simpa [entryAt, IsExact] using hx
      simp [findExact, he]
    | i + 1 =>
      have he : ¬tokenstrOf dict t.token = word := by
        have := hfirst 0 (by omega)
        simpa [entryAt, IsExact] using this
      simp only [findExact, if_neg he]
      have hi' : i < toks.length := by simpa [List.length_cons] using hi
      have hx' : IsExact dict word (entryAt toks i) := by simpa [entryAt] using hx
      have hfirst' : ∀ j, j < i → ¬IsExact dict word (entryAt toks j) := by
        intro j hj
        have := hfirst (j + 1) (by omega)
        simpa [entryAt] using this
      have := ih (k + 1) i hi' hx' hfirst'
      rw [this]; congr 1; omega

theorem findPart_no_pre (dict : List (List Nat)) (word : List Nat) :
    ∀ (toks : List TToken),
      (∀ j, j < toks.length → ¬IsPre dict word (entryAt toks j)) →
      ∀ k acc, findPart dict word k acc toks = acc := by
  intro toks
  induction toks with
  | nil => intro _ k acc; rfl
  | cons t toks ih =>
    intro h k acc
    have hhead : ¬IsPre dict word t := by simpa [entryAt] using h 0 (by simp)
    have htail : ∀ j, j < toks.length → ¬IsPre dict word (entryAt toks j) := by
      intro j hj
      have := h (j + 1) (by simp [List.length_cons]; omega)
      simpa [entryAt] using this
    by_cases hlen : (tokenstrOf dict t.token).length ≤ word.length
    · simp only [findPart, if_pos hlen]; exact ih htail (k + 1) acc
    · by_cases htake : (tokenstrOf dict t.token).take word.length = word
      · exact absurd ⟨by omega, htake⟩ hhead
      · simp only [findPart, if_neg hlen, if_neg htake]; exact ih htail (k + 1) acc

theorem findPart_pre_some_none (dict : List (List Nat)) (word : List Nat) :
    ∀ (toks : List TToken) (j : Nat),
      j < toks.length → IsPre dict word (entryAt toks j) →
      ∀ k a, findPart dict word k (some a) toks = none := by
  intro toks
  induction toks with
  | nil => intro j hj; simp [List.length_nil] at hj
  | cons t toks ih =>
    intro j hj hp k a
    by_cases hhead : IsPre dict word t
    · have hlen : ¬(tokenstrOf dict t.token).length ≤ word.length := by
        have := hhead.1; omega
      simp [findPart, hlen, hhead.2]
    · match j with
      | 0 => exact absurd (by simpa [entryAt] using hp) hhead
      | j + 1 =>
        have hj' : j < toks.length := by simpa [List.length_cons] using hj
        have hp' : IsPre dict word (entryAt toks j) := by simpa [entryAt] using hp
        by_cases hlen : (tokenstrOf dict t.token).length ≤ word.length
        · simp only [findPart, if_pos hlen]; exact ih j hj' hp' (k + 1) a
        · have htake : ¬(tokenstrOf dict t.token).take word.length = word :=
            fun ht => hhead ⟨by omega, ht⟩
          simp only [findPart, if_neg hlen, if_neg htake]
          exact ih j hj' hp' (k + 1) a

theorem findPart_unique (dict : List (List Nat)) (word : List Nat) :
    ∀ (toks : List TToken) (i : Nat),
      i < toks.length → IsPre dict word (entryAt toks i) →
      (∀ j, j < toks.length → IsPre dict word (entryAt toks j) → j = i) →
      ∀ k, findPart dict word k none toks = some (k + i) := by
  intro toks
  induction toks with
  | nil => intro i hi; simp [List.length_nil] at hi
  | cons t toks ih =>
    intro i hi hp huniq k
    match i with
    | 0 =>
      have hhead : IsPre dict word t := by simpa [entryAt] using hp
      have hlen : ¬(tokenstrOf dict t.token).length ≤ word.length := by
        have := hhead.1; omega
      have htail : ∀ j, j < toks.length → ¬IsPre dict word (entryAt toks j) := by
        intro j hj hpj
        have := huniq (j + 1) (by simp [List.length_cons]; omega)
          (by simpa [entryAt] using hpj)
        omega
      simp only [findPart, if_neg hlen, if_pos hhead.2]
      rw [findPart_no_pre dict word toks htail (k + 1) (some k)]
      rfl
    | i + 1 =>
      have hhead : ¬IsPre dict word t := by
        intro hpt
        have := huniq 0 (by simp) (by simpa [entryAt] using hpt)
        omega
      have hi' : i < toks.length := by simpa [List.length_cons] using hi
      have hp' : IsPre dict word (entryAt toks i) := by simpa [entryAt] using hp
      have huniq' : ∀ j, j < toks.length → IsPre dict word (entryAt toks j) → j = i := by
        intro j hj hpj
        have := huniq (j + 1) (by simp [List.length_cons]; omega)
          (by simpa [entryAt] using hpj)
        omega
      have hrec := ih i hi' hp' huniq' (k + 1)
      by_cases hlen : (tokenstrOf dict t.token).length ≤ word.length
      · simp only [findPart, if_pos hlen]; rw [hrec]; congr 1; omega
      · have htake : ¬(tokenstrOf dict t.token).take word.length = word :=
          fun ht => hhead ⟨by omega, ht⟩
        simp only [findPart, if_neg hlen, if_neg htake]
        rw [hrec]; congr 1; omega

theorem findPart_two_none (dict : List (List Nat)) (word : List Nat) :
    ∀ (toks : List TToken) (i j : Nat),
      i < j → j < toks.length →
      IsPre dict word (entryAt toks i) → IsPre dict word (entryAt toks j) →
      ∀ k, findPart dict word k none toks = none := by
  intro toks
  induction toks with
  | nil => intro i j _ hj; simp [List.length_nil] at hj
  | cons t toks ih =>
    intro i j hij hj hpi hpj k
    by_cases hhead : IsPre dict word t
    · have hlen : ¬(tokenstrOf dict t.token).length ≤ word.length := by
        have := hhead.1; omega
      simp only [findPart, if_neg hlen, if_pos hhead.2]
      have hj1 : j - 1 < toks.length := by simp [List.length_cons] at hj; omega
      have hpj' : IsPre dict word (entryAt toks (j - 1)) := by
        have hjpos : j = (j - 1) + 1 := by omega
        rw [hjpos] at hpj
        simpa [entryAt] using hpj
      exact findPart_pre_some_none dict word toks (j - 1) hj1 hpj' (k + 1) k
    · match i with
      | 0 => exact absurd (by simpa [entryAt] using hpi) hhead
      | i + 1 =>
        match j with
        | j + 1 =>
          have hij' : i < j := by omega
          have hj' : j < toks.length := by simpa [List.length_cons] using hj
          have hpi' : IsPre dict word (entryAt toks i) := by simpa [entryAt] using hpi
          have hpj' : IsPre dict word (entryAt toks j) := by simpa [entryAt] using hpj
          by_cases hlen : (tokenstrOf dict t.token).length ≤ word.length
          · simp only [findPart, if_pos hlen]
            exact ih i j hij' hj' hpi' hpj' (k + 1)
          · have htake : ¬(tokenstrOf dict t.token).take word.length = word :=
              fun ht => hhead ⟨by omega, ht⟩
            simp only [findPart, if_neg hlen, if_neg htake]
            exact ih i j hij' hj' hpi' hpj' (k + 1)

theorem findPart_sound (dict : List (List Nat)) (word : List Nat) :
    ∀ (toks : List TToken) (k : Nat) (acc : Option Nat) (r : Nat),
      findPart dict word k acc toks = some r →
      acc = some r ∨ ∃ jj, r = k + jj ∧ jj < toks.length ∧
        IsPre dict word (entryAt toks jj) := by
  intro toks
  induction toks with
  | nil => intro k acc r h; exact Or.inl h
  | cons t toks ih =>
    intro k acc r h
    by_cases hlen : (tokenstrOf dict t.token).length ≤ word.length
    · simp only [findPart, if_pos hlen] at h
      rcases ih (k + 1) acc r h with hl | ⟨jj, hr, hjj, hp⟩
      · exact Or.inl hl
      · exact Or.inr ⟨jj + 1, by omega, by simp [List.length_cons]; omega,
          by simpa [entryAt] using hp⟩
    · by_cases htake : (tokenstrOf dict t.token).take word.length = word
      · match acc with
        | some a => simp [findPart, hlen, htake] at h
        | none =>
          simp only [findPart, if_neg hlen, if_pos htake] at h
          rcases ih (k + 1) (some k) r h with hl | ⟨jj, hr, hjj, hp⟩
          · have hkr : k = r := by simpa using hl
            refine Or.inr ⟨0, by omega, by simp, ?_⟩
            simpa [entryAt] using (⟨by omega, htake⟩ : IsPre dict word t)
          · exact Or.inr ⟨jj + 1, by omega, by simp [List.length_cons]; omega,
              by simpa [entryAt] using hp⟩
      · simp only [findPart, if_neg hlen, if_neg htake] at h
        rcases ih (k + 1) acc r h with hl | ⟨jj, hr, hjj, hp⟩
        · exact Or.inl hl
        · exact Or.inr ⟨jj + 1, by omega, by simp [List.length_cons]; omega,
            by simpa [entryAt] using hp⟩

/-- C3: `find_token` returns the index of the unique exactly-matching entry
when one exists (regardless of position, and even if the word is also a
strict prefix of other entries); failing that, the index of the unique
entry of which the word is a strict prefix; otherwise (no strict-prefix
match, or several) it fails; and any index it returns points at an entry
the word equals or strictly extends. -/
theorem C3_find_token (toks : List TToken) (dict : List (List Nat))
    (word : List Nat) :
    (∀ i, i < toks.length → IsExact dict word (entryAt toks i) →
      (∀ j, j < toks.length → IsExact dict word (entryAt toks j) → j = i) →
      find_token toks dict word = some i) ∧
    (∀ i, (∀ j, j < toks.length → ¬IsExact dict word (entryAt toks j)) →
      i < toks.length → IsPre dict word (entryAt toks i) →
      (∀ j, j < toks.length → IsPre dict word (entryAt toks j) → j = i) →
      find_token toks dict word = some i) ∧
    ((∀ j, j < toks.length → ¬IsExact dict word (entryAt toks j)) →
      (∀ j, j < toks.length → ¬IsPre dict word (entryAt toks j)) →
      find_token toks dict word = none) ∧
    ((∀ j, j < toks.length → ¬IsExact dict word (entryAt toks j)) →
      ∀ i j, i < j → j < toks.length →
      IsPre dict word (entryAt toks i) → IsPre dict word (entryAt toks j) →
      find_token toks dict word = none) ∧
    (∀ r, find_token toks dict word = some r → r < toks.length ∧
      (IsExact dict word (entryAt toks r) ∨ IsPre dict word (entryAt toks r))) := by
  refine ⟨?_, ?_, ?_, ?_, ?_⟩
  · -- unique exact match wins
    intro i hi hx huniq
    have hfirst : ∀ j, j < i → ¬IsExact dict word (entryAt toks j) := by
      intro j hj hxj
      have hjlen : j < toks.length := by omega
      have := huniq j hjlen hxj
      omega
    have := findExact_first dict word toks 0 i hi hx hfirst
    unfold find_token
    rw [this]
    simp
  · -- no exact match, unique strict-prefix match
    intro i hnoex hi hp huniq
    have hnone : findExact dict word 0 toks = none :=
      (findExact_none_iff dict word toks 0).mpr hnoex
    unfold find_token
    rw [hnone]
    simpa using findPart_unique dict word toks i hi hp huniq 0
  · -- no exact, no prefix: failure
    intro hnoex hnopre
    have hnone : findExact dict word 0 toks = none :=
      (findExact_none_iff dict word toks 0).mpr hnoex
    unfold find_token
    rw [hnone]
    exact findPart_no_pre dict word toks hnopre 0 none
  · -- no exact, two prefix matches: failure
    intro hnoex i j hij hj hpi hpj
    have hnone : findExact dict word 0 toks = none :=
      (findExact_none_iff dict word toks 0).mpr hnoex
    unfold find_token
    rw [hnone]
    exact findPart_two_none dict word toks i j hij hj hpi hpj 0
  · -- never a false positive
    intro r h
    unfold find_token at h
    cases hx : findExact dict word 0 toks with
    | some a =>
      rw [hx] at h
      obtain ⟨j, hr, hj, hxx⟩ :=
        findExact_some_spec dict word toks 0 a (by rw [hx])
      have : a = r := by simpa using h
      subst this
      have : a = j := by omega
      subst this
      exact ⟨hj, Or.inl hxx⟩
    | none =>
      rw [hx] at h
      rcases findPart_sound dict word toks 0 none r h with hl | ⟨jj, hr, hjj, hp⟩
      · exact absurd hl (by simp)
      · have : r = jj := by omega
        subst this
        exact ⟨hjj, Or.inr hp⟩

/-- C3, witness: a two-entry list `show`, `shutdown` (IDs 1 and 2); the
word `show` matches entry 0 exactly and uniquely, and `find_token` returns
index 0; the word `sh` is a strict prefix of both, and `find_token` fails. -/
theorem C3_find_token_witness :
    find_token
      [⟨1, 0, [], none⟩, ⟨2, 0, [], none⟩]
      [[], [115, 104, 111, 119], [115, 104, 117, 116, 100, 111, 119, 110]]
      [115, 104, 111, 119] = some 0 ∧
    find_token
      [⟨1, 0, [], none⟩, ⟨2, 0, [], none⟩]
      [[], [115, 104, 111, 119], [115, 104, 117, 116, 100, 111, 119, 110]]
      [115, 104] = none := by
  constructor
  · exact (C3_find_token [⟨1, 0, [], none⟩, ⟨2, 0, [], none⟩]
      [[], [115, 104, 111, 119], [115, 104, 117, 116, 100, 111, 119, 110]]
      [115, 104, 111, 119]).1 0 (by decide) (by decide)
      (by decide)
  · exact (C3_find_token [⟨1, 0, [], none⟩, ⟨2, 0, [], none⟩]
      [[], [115, 104, 111, 119], [115, 104, 117, 116, 100, 111, 119, 110]]
      [115, 104]).2.2.2.1 (by decide) 0 1 (by decide) (by decide)
      (by decide) (by decide)

/-! ## The grammar walker (`tokenize`)

`tokenize` walks the split words left to right, matching tokens via
`find_token`, collecting typed arguments into the `t_tokenline_parsed`
output, and (in completion mode, i.e. when the C caller passes a non-NULL
`complete_tokens`) reporting the legal next tokens / pending argument
type instead of printing errors. -/

/-- ASCII bytes of a string literal. -/
def strBytes (s : String) : List Nat := s.data.map Char.toNat

def MSG_TOO_MANY_ARGS : List Nat := strBytes (r"Too many arguments.") ++ [10]

def MSG_INVALID_COMMAND : List Nat := strBytes (r"Invalid command.") ++ [10]

def MSG_INVALID_VALUE : List Nat := strBytes (r"Invalid value.") ++ [10]

def MSG_MISSING_ARG : List Nat := strBytes (r"Missing argument.") ++ [10]

def MSG_UNMATCHED_QUOTE : List Nat := strBytes (r"Unmatched quote.") ++ [10]

def MSG_TOO_MANY_WORDS : List Nat := strBytes (r"Too many words.") ++ [10]

def MSG_NO_HELP : List Nat := strBytes (r"No help available.") ++ [10]

/-- `isspace` on a byte (C locale). -/
def isSpaceB (c : Nat) : Bool := c = 32 || (9 ≤ c && c ≤ 13)

/-- Value of a decimal digit byte. -/
def decVal (c : Nat) : Option Nat :=
  if 48 ≤ c ∧ c ≤ 57 then some (c - 48) else none

/-- Value of an octal digit byte. -/
def octVal (c : Nat) : Option Nat :=
  if 48 ≤ c ∧ c ≤ 55 then some (c - 48) else none

/-- Value of a hexadecimal digit byte. -/
def hexVal (c : Nat) : Option Nat :=
  if 48 ≤ c ∧ c ≤ 57 then some (c - 48)
  else if 97 ≤ c ∧ c ≤ 102 then some (c - 87)
  else if 65 ≤ c ∧ c ≤ 70 then some (c - 55)
  else none

/-- Accumulate digits of the given base; returns the value, the number of
digits consumed, and the rest. -/
def scanDigits (base : Nat) (dval : Nat → Option Nat) :
    List Nat → Nat → Nat → (Nat × Nat × List Nat)
  | [], acc, n => (acc, n, [])
  | c :: cs, acc, n =>
    match dval c with
    | some d => scanDigits base dval cs (acc * base + d) (n + 1)
    | none => (acc, n, c :: cs)

/-- `strtol(word, &suffix, 0)`: skip whitespace, optional sign, then a
C-style base-detected magnitude (hex after `0x`/`0X` when a hex digit
follows, octal after a leading `0`, else decimal).  Returns the value and
the suffix at which conversion stopped; when no digits could be converted
the suffix is the entire input, and the value 0.  (The `LONG_MAX` clamping
on overflow is not modelled; the words below stay far below it.) -/
def strtol (s : List Nat) : Int × List Nat :=
  let s1 := s.dropWhile isSpaceB
  let neg : Bool := s1.head? = some 45
  let s2 := if s1.head? = some 45 ∨ s1.head? = some 43 then s1.tail else s1
  let m :=
    match s2 with
    | 48 :: 120 :: cs =>
      if (cs.head?.bind hexVal).isSome then scanDigits 16 hexVal cs 0 0
      else scanDigits 8 octVal (48 :: 120 :: cs) 0 0
    | 48 :: 88 :: cs =>
      if (cs.head?.bind hexVal).isSome then scanDigits 16 hexVal cs 0 0
      else scanDigits 8 octVal (48 :: 88 :: cs) 0 0
    | _ =>
      if s2.head? = some 48 then scanDigits 8 octVal s2 0 0
      else scanDigits 10 decVal s2 0 0
  if m.2.1 = 0 then (0, s)
  else ((if neg then -(m.1 : Int) else (m.1 : Int)), m.2.2)

/-- Serialize a C `int` in host (little-endian) byte order, two's
complement. -/
def intLE4 (v : Int) : List Nat :=
  let u := (v % 4294967296).toNat
  [u % 256, u / 256 % 256, u / 65536 % 256, u / 16777216 % 256]

/-- Read back a C `int` from 4 little-endian bytes at `off`
(`*(int*)(buf + off)`). -/
def decodeInt4 (bs : List Nat) (off : Nat) : Int :=
  let u := bs.getD off 0 + 256 * bs.getD (off + 1) 0 +
    65536 * bs.getD (off + 2) 0 + 16777216 * bs.getD (off + 3) 0
  if u < 2147483648 then (u : Int) else (u : Int) - 4294967296

/-- Number of digits consumed plus the rest, for the simplified decimal
`strtof` recognizer. -/
def countWhile (p : Nat → Bool) (s : List Nat) : Nat × List Nat :=
  ((s.takeWhile p).length, s.dropWhile p)

/-- `strtof(word, &suffix)` acceptance: whether any conversion happened and
where the suffix starts.  Modelled for decimal forms
(sign, digits with an optional point, optional exponent); the bit-level
float value is not modelled (no claim concerns FLOAT arguments), and the
serialized value is modelled as four zero bytes. -/
def strtofRest (s : List Nat) : Bool × List Nat :=
  let isDec := fun c => (decVal c).isSome
  let s1 := s.dropWhile isSpaceB
  let s2 := if s1.head? = some 45 ∨ s1.head? = some 43 then s1.tail else s1
  let m1 := countWhile isDec s2
  let m2 := if m1.2.head? = some 46 then countWhile isDec m1.2.tail else (0, m1.2)
  if m1.1 + m2.1 = 0 then (false, s)
  else
    let r2 := m2.2
    let r3 :=
      if r2.head? = some 101 ∨ r2.head? = some 69 then
        let re := if r2.tail.head? = some 45 ∨ r2.tail.head? = some 43 then
          r2.tail.tail else r2.tail
        let me := countWhile isDec re
        if me.1 = 0 then r2 else me.2
      else r2
    (true, r3)

/-- Modelled from the spec: the `t_tokenline_parsed` capacities are fixed
by the missing header; the spec gives no numbers, and 32 token slots with
64 bytes of argument storage cover every run considered here. -/
def TL_MAX_PARSED_TOKENS : Nat := 32

/-- Modelled from the spec: capacity of the parsed argument storage. -/
def TL_MAX_PARSED_BUF : Nat := 64

/-- The `t_tokenline_parsed` output: the token/tag/offset stream, the
argument storage bytes, and `last_token_entry` (a pointer in C; modelled by
the entry's value). -/
structure Parsed where
  tokens : List Nat
  pbuf : List Nat
  last : Option TToken

/-- `memcpy(dst + off, src, src.length)` within a fixed-size buffer:
bytes past the end of `dst` are dropped (the C would overflow). -/
def writeBytes (dst : List Nat) (off : Nat) (src : List Nat) : List Nat :=
  (dst.take off ++ src ++ dst.drop (off + src.length)).take dst.length

/-- Result of `tokenize`: success flag, the parsed output, the completion
token list and pending-argument type (meaningful when the caller asked for
completion), and the error bytes printed. -/
structure TokRes where
  ok : Bool
  parsed : Parsed
  completeTokens : Option (List TToken)
  completeArg : Nat
  out : List Nat

/-- The word loop of `tokenize`.  `buf` is the (split) line buffer whose
offsets the words index; `complete` is true when the C caller passed a
non-NULL `complete_tokens` (errors are then suppressed); `stack` models
`token_stack[0..cur_tsp]` with the current level at the head (the C array
bound of 8 levels is not modelled — the grammars here are shallow). -/
def tokenizeGo (buf : List Nat) (dict : List (List Nat)) (complete : Bool) :
    List Nat → List (List TToken) → Bool → Nat → List TToken →
    Nat → Nat → Parsed → TokRes
  | [], stack, done, argNeeded, argTokens, curTp, _, p =>
    if argNeeded ≠ 0 ∧ complete = false then
      ⟨false, p, none, argNeeded, MSG_MISSING_ARG⟩
    else
      let p := { p with tokens := p.tokens.set curTp 0 }
      let ct : Option (List TToken) :=
        if complete then
          if done then none
          else if argNeeded = TARG_TOKEN then some argTokens
          else some (stack.headD [])
        else none
      ⟨true, p, ct, argNeeded, []⟩
  | w :: ws, stack, done, argNeeded, argTokens, curTp, curBufsize, p =>
    let word := readCStr buf w
    if done then
      ⟨false, p, none, argNeeded, if complete then [] else MSG_TOO_MANY_ARGS⟩
    else if argNeeded = 0 then
      -- Token needed.
      match find_token (stack.headD []) dict word with
      | some tIdx =>
        let ent := entryAt (stack.headD []) tIdx
        let p := { p with tokens := p.tokens.set curTp ent.token,
                          last := some ent }
        if ent.arg_type = TARG_HELP then
          tokenizeGo buf dict complete ws stack done 0 argTokens
            (curTp + 1) curBufsize p
        else if ent.arg_type ≠ 0 then
          tokenizeGo buf dict complete ws stack done ent.arg_type
            (if ent.arg_type = TARG_TOKEN then ent.subtokens else argTokens)
            (curTp + 1) curBufsize p
        else if ent.subtokens.isEmpty then
          tokenizeGo buf dict complete ws stack true 0 argTokens
            (curTp + 1) curBufsize p
        else
          tokenizeGo buf dict complete ws (ent.subtokens :: stack) done 0
            argTokens (curTp + 1) curBufsize p
      | none => ⟨false, p, none, argNeeded,
          if complete then [] else MSG_INVALID_COMMAND⟩
    else
      -- Parse word as the type in argNeeded.
      if argNeeded = TARG_INT then
        let m := strtol word
        if m.2 ≠ [] then
          ⟨false, p, none, argNeeded, if complete then [] else MSG_INVALID_VALUE⟩
        else
          let p := { p with
            tokens := (p.tokens.set curTp TARG_INT).set (curTp + 1) curBufsize,
            pbuf := writeBytes p.pbuf curBufsize (intLE4 m.1) }
          tokenizeGo buf dict complete ws stack done 0 argTokens
            (curTp + 2) (curBufsize + 4) p
      else if argNeeded = TARG_FLOAT then
        let m := strtofRest word
        if m.2 ≠ [] then
          ⟨false, p, none, argNeeded, if complete then [] else MSG_INVALID_VALUE⟩
        else
          let p := { p with
            tokens := (p.tokens.set curTp TARG_FLOAT).set (curTp + 1) curBufsize,
            pbuf := writeBytes p.pbuf curBufsize [0, 0, 0, 0] }
          tokenizeGo buf dict complete ws stack done 0 argTokens
            (curTp + 2) (curBufsize + 4) p
      else if argNeeded = TARG_STRING then
        let p := { p with
          tokens := (p.tokens.set curTp TARG_STRING).set (curTp + 1) curBufsize,
          pbuf := (writeBytes p.pbuf curBufsize (word ++ [0])).set
            (curBufsize + word.length + 1) 0 }
        tokenizeGo buf dict complete ws stack done 0 argTokens
          (curTp + 2) (curBufsize + word.length + 1) p
      else if argNeeded = TARG_TOKEN then
        match find_token argTokens dict word with
        | some tIdx =>
          let ent := entryAt argTokens tIdx
          let p := { p with tokens := p.tokens.set curTp ent.token,
                            last := some ent }
          tokenizeGo buf dict complete ws stack done 0 argTokens
            (curTp + 1) curBufsize p
        | none => ⟨false, p, none, argNeeded,
            if complete then [] else MSG_INVALID_VALUE⟩
      else
        -- C switch: no case matches, the argument word is consumed untyped.
        tokenizeGo buf dict complete ws stack done 0 argTokens curTp curBufsize p

/-- `tokenize(tl, words, num_words, complete_tokens, complete_arg)`:
`lvl` is `tl->token_levels[tl->token_level]`, `words` the recorded word
offsets (of which the C takes `num_words`; the caller passes the list of
exactly the words to consume), `p` the previous `tl->parsed` contents. -/
def tokenize (buf : List Nat) (dict : List (List Nat)) (lvl : List TToken)
    (complete : Bool) (words : List Nat) (p : Parsed) : TokRes :=
  tokenizeGo buf dict complete words [lvl] false 0 [] 0 0 p

/-- `takeWhile (· ≠ 0)` keeps a NUL-free list whole. -/
theorem takeWhile_ne_zero (w : List Nat) (h : 0 ∉ w) :
    w.takeWhile (fun b => b ≠ 0) = w := by
  induction w with
  | nil => rfl
  | cons b bs ih =>
    have hb : b ≠ 0 := fun hb => h (hb ▸ List.mem_cons_self b bs)
    have hbs : 0 ∉ bs := fun hm => h (List.mem_cons_of_mem b hm)
    simp [List.takeWhile, hb, ih hbs]
    exact fun x hx h0 => hbs (h0 ▸ hx)

/-- Serializing a C `int` and reading it back through `*(int*)` is the
identity on the `int` range. -/
theorem decode_intLE4 (v : Int) (rest : List Nat)
    (h1 : -2147483648 ≤ v) (h2 : v < 2147483648) :
    decodeInt4 (intLE4 v ++ rest) 0 = v := by
  unfold intLE4 decodeInt4
  have hmod : (0:Int) ≤ v % 4294967296 ∧ v % 4294967296 < 4294967296 := by
    constructor
    · exact Int.emod_nonneg v (by norm_num)
    · exact Int.emod_lt_of_pos v (by norm_num)
  set u := (v % 4294967296).toNat with hu
  have hulh : (u : Int) = v % 4294967296 := by
    rw [hu]; exact Int.toNat_of_nonneg hmod.1
  have hub : u < 4294967296 := by
    have := hmod.2; omega
  have hrecon : u % 256 + 256 * (u / 256 % 256) + 65536 * (u / 65536 % 256) +
      16777216 * (u / 16777216 % 256) = u := by omega
  simp only [List.cons_append, List.nil_append, List.getD_cons_zero,
    List.getD_cons_succ]
  rw [hrecon]
  by_cases hv0 : 0 ≤ v
  · have hveq : v % 4294967296 = v := Int.emod_eq_of_lt hv0 (by omega)
    have huv : (u : Int) = v := by rw [hulh, hveq]
    have : u < 2147483648 := by omega
    simp [this, huv]
  · have hneg : v < 0 := by omega
    have hveq : v % 4294967296 = v + 4294967296 := by
      have : v = (v + 4294967296) - 4294967296 := by ring
      rw [this, Int.sub_emod, Int.emod_self, sub_zero, Int.emod_emod_of_dvd]
      · rw [Int.emod_eq_of_lt (by omega) (by omega)]; ring
      · norm_num
    have huv : (u : Int) = v + 4294967296 := by rw [hulh, hveq]
    have : ¬u < 2147483648 := by omega
    simp only [this, if_false]
    omega

/-- The grammar `set → arg INTEGER` (token ID 7). -/
def intGrammar : List TToken := [⟨7, TARG_INT, [], none⟩]

/-- A dictionary giving token ID 7 the display string `set`. -/
def intDict : List (List Nat) :=
  [[], [], [], [], [], [], [], [115, 101, 116]]

/-- A freshly zeroed `t_tokenline_parsed` (as after `tl_init`'s `memset`). -/
def parsed0 : Parsed :=
  ⟨List.replicate TL_MAX_PARSED_TOKENS 0, List.replicate TL_MAX_PARSED_BUF 0, none⟩

/-- The split line buffer `set\0<w>` with word offsets 0 and 4. -/
def intBuf (w : List Nat) : List Nat := [115, 101, 116, 0] ++ w

/-- Parsing `set <w>` against `intGrammar`. -/
def intRun (w : List Nat) : TokRes :=
  tokenize (intBuf w) intDict intGrammar false [0, 4] parsed0

/-- C6: with a pending INTEGER argument, the argument word is parsed with
the C-style base-detecting integer scanner (`strtol` base 0: decimal, hex
with `0x`, octal with a leading `0`); the parse succeeds exactly when the
scanner leaves no suffix; and on success the parsed stream is the token ID,
the `TARG_INT` tag, the arg-storage offset 0, then the terminating 0, with
the integer value serialized at that offset in host representation. -/
theorem C6_tokenize_integer (w : List Nat) (h0 : (0:Nat) ∉ w)
    (h1 : -2147483648 ≤ (strtol w).1) (h2 : (strtol w).1 < 2147483648) :
    ((intRun w).ok = true ↔ (strtol w).2 = []) ∧
    ((strtol w).2 = [] →
      (intRun w).parsed.tokens.take 4 = [7, TARG_INT, 0, 0] ∧
      decodeInt4 (intRun w).parsed.pbuf 0 = (strtol w).1) := by
  have hw0 : readCStr (intBuf w) 0 = [115, 101, 116] := by
    simp [readCStr, intBuf, List.takeWhile]
  have hw4 : readCStr (intBuf w) 4 = w := by
    simp only [readCStr, intBuf]
    rw [show List.drop 4 ([115, 101, 116, 0] ++ w) = w from rfl]
    exact takeWhile_ne_zero w h0
  have hfind : find_token [⟨7, 1, [], none⟩] intDict [115, 101, 116] = some 0 := by
    decide
  unfold intRun tokenize
  simp only [tokenizeGo, List.headD_cons, hw0, hw4, TARG_INT, TARG_HELP,
    TARG_FLOAT, TARG_STRING, TARG_TOKEN, intGrammar, hfind, entryAt,
    List.getD_cons_zero, dummyTok]
  norm_num
  have hlen4 : (intLE4 (strtol w).1).length = 4 := by unfold intLE4; rfl
  have hwb : writeBytes parsed0.pbuf 0 (intLE4 (strtol w).1) =
      intLE4 (strtol w).1 ++ List.replicate 60 0 := by
    unfold writeBytes
    rw [List.take_zero, List.nil_append, Nat.zero_add, hlen4]
    rw [show (parsed0.pbuf.drop 4) = List.replicate 60 0 from by decide]
    rw [show parsed0.pbuf.length = 64 from by decide]
    have hl : (intLE4 (strtol w).1 ++ List.replicate 60 0).length = 64 := by
      simp [hlen4]
    rw [← hl, List.take_length]
  constructor
  · by_cases hrest : (strtol w).2 = [] <;> simp [hrest]
  · intro hrest
    simp only [hrest, reduceIte]
    constructor
    · decide
    · show decodeInt4 (writeBytes parsed0.pbuf 0 (intLE4 (strtol w).1)) 0 =
        (strtol w).1
      rw [hwb]
      exact decode_intLE4 (strtol w).1 (List.replicate 60 0) h1 h2

/-- C6, witness: the word `0x2A` parses to 42 and `set 0x2A` produces the
stream `[ID(set), INTEGER, 0, 0]` with 42 serialized at offset 0. -/
theorem C6_tokenize_integer_witness :
    (intRun [48, 120, 50, 65]).ok = true ∧
    (intRun [48, 120, 50, 65]).parsed.tokens.take 4 = [7, TARG_INT, 0, 0] ∧
    decodeInt4 (intRun [48, 120, 50, 65]).parsed.pbuf 0 = 42 := by
  have h := C6_tokenize_integer [48, 120, 50, 65] (by decide) (by decide)
    (by decide)
  refine ⟨h.1.mpr (by decide), (h.2 (by decide)).1, ?_⟩
  rw [(h.2 (by decide)).2]
  decide

/-! ## The engine state (`t_tokenline`) and the editor actions

The print sink is modelled by returning the printed bytes alongside the
new state.  `hist_step` is a C `int` with -1 as the NONE sentinel, so it is
an `Int` here.  The callback is modelled by a flag (`tl->callback != NULL`)
plus a Boolean result saying whether it was invoked.  The three
wrap-around scanning loops of the history code are given fuel one larger
than any terminating C run can use (on states where the C itself would
loop forever — a ring with no zero byte, which no reachable state has —
the model stops at fuel exhaustion). -/

structure Tl where
  buf : List Nat
  buf_len : Nat
  pos : Nat
  escape : List Nat
  escape_len : Nat
  prompt : List Nat
  token_levels : List (List TToken)
  token_level : Nat
  token_dict : List (List Nat)
  hist_buf : List Nat
  hist_begin : Nat
  hist_end : Nat
  hist_step : Int
  parsed : Parsed
  hasCallback : Bool

/-- `tl->token_levels[tl->token_level]`. -/
def tlLevel (s : Tl) : List TToken := s.token_levels.getD s.token_level []

def INDENT_B : List Nat := [32, 32, 32]

def ESC_RIGHT : List Nat := [27, 91, 67]

def ESC_LEFT : List Nat := [27, 91, 68]

def ESC_RIGHT1 : List Nat := [27, 91, 49, 67]

def ESC_LEFT1 : List Nat := [27, 91, 49, 68]

def ESC_BSP : List Nat := [27, 91, 68, 32, 27, 91, 68]

def ESC_CLS : List Nat := [27, 91, 50, 74, 27, 91, 72]

/-- `n` copies of a byte string, concatenated. -/
def repList (n : Nat) (l : List Nat) : List Nat := (List.replicate n l).flatten

/-- `memmove(l + dst, l + src, n)` within one fixed-size buffer. -/
def memmoveList (l : List Nat) (dst src n : Nat) : List Nat :=
  (l.take dst ++ (l.drop src).take n ++ l.drop (dst + n)).take l.length

/-- `unsplit_line(tl)`: restore `buf[0..buf_len)` and re-terminate. -/
def tl_unsplit (s : Tl) : Tl :=
  { s with buf := ((unsplitGo false (s.buf.take s.buf_len)) ++
      s.buf.drop s.buf_len).set s.buf_len 0 }

/-- `split_line(tl, words, &num_words, silent)`: returns the new state,
the word offsets, `num_words`, the success flag, and the error bytes. -/
def tl_split (s : Tl) (silent : Bool) :
    Tl × List Nat × Nat × Bool × List Nat :=
  let r := splitGo 1 false 0 0 (s.buf.take s.buf_len)
  let sMid := { s with buf := r.buf ++ s.buf.drop s.buf_len }
  if r.quoted then
    (tl_unsplit sMid, r.words, r.nw, false,
      if silent then [] else MSG_UNMATCHED_QUOTE)
  else if r.nw = TL_MAX_WORDS then
    (tl_unsplit sMid, r.words, r.nw, false,
      if silent then [] else MSG_TOO_MANY_WORDS)
  else (sMid, r.words, r.nw, true, [])

/-- `add_char(tl, c)`. -/
def add_char (s : Tl) (c : Nat) : Tl × List Nat :=
  if s.pos = s.buf_len then
    let buf1 := (s.buf.set s.buf_len c).set (s.buf_len + 1) 0
    ({ s with buf := buf1, buf_len := s.buf_len + 1, pos := s.pos + 1 },
      readCStr buf1 s.buf_len)
  else
    let buf1 := (memmoveList s.buf (s.pos + 1) s.pos (s.buf_len - s.pos + 1)).set
      s.pos c
    ({ s with buf := buf1, buf_len := s.buf_len + 1, pos := s.pos + 1 },
      readCStr buf1 s.pos ++ repList (s.buf_len - s.pos) ESC_LEFT)

/-- `backspace(tl)`. -/
def backspace (s : Tl) : Tl × List Nat :=
  if s.pos = s.buf_len then
    ({ s with buf := s.buf.set (s.buf_len - 1) 0,
              buf_len := s.buf_len - 1, pos := s.pos - 1 }, ESC_BSP)
  else
    let buf1 := memmoveList s.buf (s.pos - 1) s.pos (s.buf_len - s.pos + 1)
    ({ s with buf := buf1, buf_len := s.buf_len - 1, pos := s.pos - 1 },
      ESC_LEFT ++ readCStr buf1 (s.pos - 1) ++ [32] ++
        repList (s.buf_len - s.pos + 1) ESC_LEFT)

theorem backspace_pos (s : Tl) : (backspace s).1.pos = s.pos - 1 := by
  unfold backspace; split <;> rfl

/-- The `while (tl->pos < tl->buf_len)` cursor-right loop (Ctrl-E, End,
and the first half of `delete_line`).  The loop advances `pos` by one per
iteration, so `buf_len - pos` iterations happen; the recursion is given
exactly that much fuel. -/
def moveToEndGo : Nat → Tl → Tl × List Nat
  | 0, s => (s, [])
  | n + 1, s =>
    if s.pos < s.buf_len then
      let r := moveToEndGo n { s with pos := s.pos + 1 }
      (r.1, ESC_RIGHT ++ r.2)
    else (s, [])

def moveToEnd (s : Tl) : Tl × List Nat := moveToEndGo (s.buf_len - s.pos) s

/-- The `while (tl->pos)` cursor-left loop (Ctrl-A and Home); `pos` falls
by one per iteration. -/
def moveToStartGo : Nat → Tl → Tl × List Nat
  | 0, s => (s, [])
  | n + 1, s =>
    if s.pos = 0 then (s, [])
    else
      let r := moveToStartGo n { s with pos := s.pos - 1 }
      (r.1, ESC_LEFT ++ r.2)

def moveToStart (s : Tl) : Tl × List Nat := moveToStartGo s.pos s

/-- The `while (tl->pos) backspace(tl)` loop of `delete_line`; `backspace`
decrements `pos` by one per call. -/
def bsLoopGo : Nat → Tl → Tl × List Nat
  | 0, s => (s, [])
  | n + 1, s =>
    if s.pos = 0 then (s, [])
    else
      let b := backspace s
      let r := bsLoopGo n b.1
      (r.1, b.2 ++ r.2)

def bsLoop (s : Tl) : Tl × List Nat := bsLoopGo s.pos s

/-- `delete_line(tl)`. -/
def delete_line (s : Tl) : Tl × List Nat :=
  let m := moveToEnd s
  let r := bsLoop m.1
  (r.1, m.2 ++ r.2)

/-- `set_line(tl, line)`. -/
def set_line (s : Tl) (line : List Nat) : Tl × List Nat :=
  if TL_MAX_LINE_LEN - 1 < line.length then add_char s 33
  else if s.pos = s.buf_len then
    let buf1 := (writeBytes s.buf s.buf_len line).set (s.buf_len + line.length) 0
    ({ s with buf := buf1, pos := s.pos + line.length,
              buf_len := s.buf_len + line.length }, line)
  else (s, [])

/-- Decrement a ring index with wrap-around (`if (--i < 0) i = MAX - 1`),
on a C `int` argument. -/
def decWrapI (e : Int) : Nat :=
  if e - 1 < 0 then TL_MAX_HISTORY_SIZE - 1 else (e - 1).toNat

/-- Increment a ring index with wrap-around (`if (++i == MAX) i = 0`). -/
def incWrap (i : Nat) : Nat :=
  if i + 1 = TL_MAX_HISTORY_SIZE then 0 else i + 1

/-- The backward scan of `history_previous`: while the byte is nonzero,
remember the position and step back. -/
def hprevLoop (hbuf : List Nat) : Nat → Nat → Nat → Nat
  | 0, _, prev => prev
  | fuel + 1, entry, prev =>
    if hbuf.getD entry 0 ≠ 0 then
      hprevLoop hbuf fuel (decWrapI entry) entry
    else prev

/-- `history_previous(tl, entry)`: offset of the entry before `entry`, or
-1 at `hist_begin`. -/
def history_previous (s : Tl) (entry : Int) : Int :=
  if entry = (s.hist_begin : Int) then -1
  else
    let e1 := decWrapI entry
    let e2 := decWrapI (e1 : Int)
    (hprevLoop s.hist_buf (TL_MAX_HISTORY_SIZE + 1) e2 e1 : Int)

/-- `history_up(tl)`. -/
def history_up (s : Tl) : Tl × List Nat :=
  let entry := if s.hist_step = -1 then history_previous s s.hist_end
    else history_previous s s.hist_step
  if entry = -1 then (s, [])
  else
    let d := delete_line s
    let sl := set_line d.1 (readCStr s.hist_buf entry.toNat)
    ({ sl.1 with hist_step := entry }, d.2 ++ sl.2)

/-- The forward scan of `history_down`: skip the current entry's bytes. -/
def hdSkip (hbuf : List Nat) : Nat → Nat → Nat
  | 0, i => i
  | fuel + 1, i =>
    if hbuf.getD i 0 ≠ 0 then hdSkip hbuf fuel (incWrap i) else i

/-- `history_down(tl)`. -/
def history_down (s : Tl) : Tl × List Nat :=
  if s.hist_step = -1 then (s, [])
  else
    let d := delete_line s
    if s.hist_step = (s.hist_end : Int) then ({ d.1 with hist_step := -1 }, d.2)
    else
      let i0 := hdSkip s.hist_buf (TL_MAX_HISTORY_SIZE + 1) s.hist_step.toNat
      let i1 := incWrap i0
      let sl := set_line d.1 (readCStr s.hist_buf i1)
      ({ sl.1 with hist_step := (i1 : Int) }, d.2 ++ sl.2)

/-- `history_show(tl)`'s entry loop (fuel bounds the number of entries). -/
def historyShowLoop (s : Tl) : Nat → Int → List Nat
  | 0, _ => []
  | fuel + 1, entry =>
    if entry = -1 then []
    else
      let e := entry.toNat
      let str := readCStr s.hist_buf e
      let wrapped := e + str.length = TL_MAX_HISTORY_SIZE
      str ++ (if wrapped then readCStr s.hist_buf 0 else []) ++ [10] ++
        historyShowLoop s fuel (history_previous s (e : Int))

/-- `history_show(tl)`: print every entry newest first, skipping the
just-added `history` command itself. -/
def history_show (s : Tl) : List Nat :=
  let entry := history_previous s (s.hist_end : Int)
  historyShowLoop s (TL_MAX_HISTORY_SIZE + 1) (history_previous s entry)

/-- The zeroing loop of `history_delete`: free at least `size` bytes and
keep zeroing to the end of the last partially-deleted entry. -/
def histDelLoop (hbuf : List Nat) : Nat → Nat → Nat → Nat → (List Nat × Nat)
  | 0, i, _, _ => (hbuf, i)
  | fuel + 1, i, freed, size =>
    if freed < size ∨ hbuf.getD i 0 ≠ 0 then
      histDelLoop (hbuf.set i 0) fuel (incWrap i) (freed + 1) size
    else (hbuf, i)

/-- The skip loop of `history_delete` (`do { ++i … } while (!hist_buf[i]
&& i < entry)`). -/
def histSkipLoop (hbuf : List Nat) : Nat → Nat → Nat → Nat
  | 0, i, _ => i
  | fuel + 1, i, entry =>
    if hbuf.getD i 0 = 0 ∧ i < entry then
      histSkipLoop hbuf fuel (incWrap i) entry
    else i

/-- `history_delete(tl, entry, size)`: returns the new state and the next
entry offset. -/
def history_delete (s : Tl) (entry size : Nat) : Tl × Nat :=
  let r := histDelLoop s.hist_buf (size + TL_MAX_HISTORY_SIZE + 1) entry 0 size
  let hbuf := r.1.set r.2 0
  let i2 := histSkipLoop hbuf (TL_MAX_HISTORY_SIZE + 1) (incWrap r.2) entry
  ({ s with hist_buf := hbuf }, i2)

/-- `history_add(tl)`: append `tl->buf` (with its NUL) to the ring. -/
def history_add (s : Tl) : Tl :=
  let str := readCStr s.buf 0 ++ [0]
  let size := str.length
  let s1 : Tl :=
    if s.hist_begin = s.hist_end then
      -- First entry, both are 0.
      { s with hist_buf := writeBytes s.hist_buf 0 str }
    else if s.hist_begin < s.hist_end then
      if size ≤ TL_MAX_HISTORY_SIZE - s.hist_end then
        { s with hist_buf := writeBytes s.hist_buf s.hist_end str }
      else
        let part1 := TL_MAX_HISTORY_SIZE - s.hist_end
        let d := history_delete s s.hist_begin (size - part1)
        let s2 := { d.1 with hist_begin := d.2 }
        let hb := writeBytes (writeBytes s2.hist_buf s.hist_end
          (str.take part1)) 0 (str.drop part1)
        { s2 with hist_buf := hb }
    else
      let part1 := s.hist_begin - s.hist_end
      if part1 ≤ size then
        -- Not enough room between end and begin.
        let d := history_delete s s.hist_begin (size - part1)
        let s2 := { d.1 with hist_begin := d.2 }
        let part1b := TL_MAX_HISTORY_SIZE - s.hist_end
        if part1b < size then
          let hb := writeBytes (writeBytes s2.hist_buf s.hist_end
            (str.take part1b)) 0 (str.drop part1b)
          { s2 with hist_buf := hb }
        else
          { s2 with hist_buf := writeBytes s2.hist_buf s.hist_end str }
      else
        -- Enough room between end and begin.
        { s with hist_buf := writeBytes s.hist_buf s.hist_end str }
  let e1 := s1.hist_end + size
  let e2 := if TL_MAX_HISTORY_SIZE ≤ e1 then e1 - TL_MAX_HISTORY_SIZE else e1
  let s3 : Tl := { s1 with hist_end := e2 }
  if s3.hist_begin = s3.hist_end then
    let d := history_delete s3 s3.hist_begin
      (readCStr s3.hist_buf s3.hist_begin).length
    { d.1 with hist_begin := d.2 }
  else s3

/-- `show_help(tl, words, num_words)` (it only prints; `words` unused in
the C too). -/
def show_help (s : Tl) (num_words : Nat) : List Nat :=
  match s.parsed.last with
  | none => []
  | some ent =>
    let head := match ent.help with
      | some hl => hl ++ [10]
      | none => []
    let toks := if num_words = 1 then s.token_levels.getD 0 [] else ent.subtokens
    let body :=
      if toks.isEmpty then []
      else (toks.map (fun tk =>
        INDENT_B ++ tokenstrOf s.token_dict tk.token ++
        (match tk.help with
         | some hl =>
           List.replicate (15 - (tokenstrOf s.token_dict tk.token).length) 32 ++ hl
         | none => []) ++ [10])).flatten
    let tail := if ent.help.isNone ∧ toks.isEmpty then MSG_NO_HELP else []
    head ++ body ++ tail

def HELP_W : List Nat := [104, 101, 108, 112]

def HISTORY_W : List Nat := [104, 105, 115, 116, 111, 114, 121]

/-- `process_line(tl)`: submit the current line.  Returns the new state,
the printed bytes, and whether the parse callback was invoked. -/
def process_line (s : Tl) : Tl × List Nat × Bool :=
  let r : Tl × List Nat × Bool :=
    if s.buf_len = 0 then (s, [], false)
    else
      let sh := history_add s
      let sp := tl_split sh false
      let s2 := sp.1
      let words := sp.2.1
      let nw := sp.2.2.1
      let ok := sp.2.2.2.1
      let outSplit := sp.2.2.2.2
      if ok = false then (s2, outSplit, false)
      else if nw = 0 then (s2, [], false)
      else if readCStr s2.buf (words.headD 0) = HELP_W then
        -- Tokenize with errors turned off.
        let tr := tokenize s2.buf s2.token_dict (tlLevel s2) true words s2.parsed
        let s3 := { s2 with parsed := tr.parsed }
        if s3.parsed.last.isSome then (s3, show_help s3 nw, false)
        else (s3, [], false)
      else if readCStr s2.buf (words.headD 0) = HISTORY_W then
        (s2, history_show s2, false)
      else
        let tr := tokenize s2.buf s2.token_dict (tlLevel s2) false words s2.parsed
        let s3 := { s2 with parsed := tr.parsed }
        if tr.ok = false then (s3, tr.out, false)
        else (s3, tr.out, s3.hasCallback)
  let sE : Tl := { r.1 with buf := r.1.buf.set 0 0, buf_len := 0,
                            escape_len := 0, pos := 0 }
  (sE, [10] ++ r.2.1 ++ s.prompt, r.2.2)

/-- The `add_char` loop of `complete`'s unique-match branch. -/
def addChars (s : Tl) : List Nat → Tl × List Nat
  | [] => (s, [])
  | c :: cs =>
    let a := add_char s c
    let r := addChars a.1 cs
    (r.1, a.2 ++ r.2)

/-- The partial-match scan of `complete`: `part` is the token ID of the
match found so far (0 = none); on a second match the previous one is
printed and `multiple` set. -/
def completeScan (dict : List (List Nat)) (word : List Nat) :
    List TToken → Nat → Bool → (Nat × Bool × List Nat)
  | [], part, multiple => (part, multiple, [])
  | tk :: tks, part, multiple =>
    if (tokenstrOf dict tk.token).take word.length = word then
      if part ≠ 0 then
        let r := completeScan dict word tks tk.token true
        (r.1, r.2.1, ([10] ++ INDENT_B ++ tokenstrOf dict part) ++ r.2.2)
      else completeScan dict word tks tk.token multiple
    else completeScan dict word tks part multiple

/-- `complete(tl)`: the TAB handler. -/
def complete (s : Tl) : Tl × List Nat :=
  if s.pos = 0 then
    -- Tab on an empty line: show all top-level commands.
    let toks := s.token_levels.getD 0 []
    let listing := (toks.map (fun tk =>
      INDENT_B ++ tokenstrOf s.token_dict tk.token ++ [10])).flatten
    let s1 := tl_unsplit s
    (s1, [10] ++ listing ++ s1.prompt ++ readCStr s1.buf 0)
  else if s.buf.getD (s.pos - 1) 0 ≠ 32 then
    -- Try to complete the current word.
    let sp := tl_split s true
    let s2 := sp.1
    let words := sp.2.1
    let nw := sp.2.2.1
    let ok := sp.2.2.2.1
    if ok = false ∨ nw = 0 then (s2, [])
    else
      let tr := tokenize s2.buf s2.token_dict (tlLevel s2) true
        (words.take (nw - 1)) s2.parsed
      let s3 : Tl := { s2 with parsed := tr.parsed }
      if tr.ok = true then
        match tr.completeTokens with
        | some toks =>
          let word := readCStr s3.buf (words.getD (nw - 1) 0)
          let scan := completeScan s3.token_dict word toks 0 false
          if scan.1 ≠ 0 then
            if scan.2.1 then
              let s4 := tl_unsplit s3
              (s4, scan.2.2 ++ [10] ++ INDENT_B ++
                tokenstrOf s4.token_dict scan.1 ++ [10] ++ s4.prompt ++
                readCStr s4.buf 0)
            else
              let suffix :=
                (tokenstrOf s3.token_dict scan.1).drop word.length ++ [32]
              let a := addChars s3 suffix
              let s4 := tl_unsplit a.1
              (s4, scan.2.2 ++ a.2)
          else
            let s4 := tl_unsplit s3
            (s4, scan.2.2)
        | none => (tl_unsplit s3, [])
      else (tl_unsplit s3, [])
  else
    -- List all possible tokens from this point.
    let sp := tl_split s true
    let s2 := sp.1
    let words := sp.2.1
    let nw := sp.2.2.1
    let ok := sp.2.2.2.1
    if ok = false ∨ nw = 0 then (s2, [])
    else
      let tr := tokenize s2.buf s2.token_dict (tlLevel s2) true words s2.parsed
      let s3 : Tl := { s2 with parsed := tr.parsed }
      if tr.ok = true then
        if tr.completeArg ≠ 0 ∧ tr.completeArg ≠ TARG_TOKEN then
          let placeholder :=
            if tr.completeArg = TARG_INT then
              INDENT_B ++ [10] ++ [60, 105, 110, 116, 101, 103, 101, 114, 62, 10]
            else if tr.completeArg = TARG_FLOAT then
              INDENT_B ++ [10] ++ [60, 102, 108, 111, 97, 116, 62, 10]
            else if tr.completeArg = TARG_STRING then
              INDENT_B ++ [10] ++ [60, 115, 116, 114, 105, 110, 103, 62, 10]
            else []
          let reprompt := tr.completeArg = TARG_INT ∨
            tr.completeArg = TARG_FLOAT ∨ tr.completeArg = TARG_STRING
          let s4 := tl_unsplit s3
          (s4, placeholder ++
            (if reprompt then s4.prompt ++ readCStr s4.buf 0 else []))
        else
          match tr.completeTokens with
          | some toks =>
            let listing := (toks.map (fun tk =>
              INDENT_B ++ tokenstrOf s3.token_dict tk.token ++ [10])).flatten
            let s4 := tl_unsplit s3
            (s4, [10] ++ listing ++
              (if toks.isEmpty then [] else s4.prompt ++ readCStr s4.buf 0))
          | none => (tl_unsplit s3, [])
      else (tl_unsplit s3, [])

/-- The unique-prefix-match discriminator of `complete`: it follows the
same branch structure as the source and returns the matched token ID and
the current word's length exactly when the unique-match `add_char` branch
of `complete` runs. -/
def completeUnique (s : Tl) : Option (Nat × Nat) :=
  if s.pos = 0 then none
  else if s.buf.getD (s.pos - 1) 0 ≠ 32 then
    let sp := tl_split s true
    let s2 := sp.1
    let words := sp.2.1
    let nw := sp.2.2.1
    let ok := sp.2.2.2.1
    if ok = false ∨ nw = 0 then none
    else
      let tr := tokenize s2.buf s2.token_dict (tlLevel s2) true
        (words.take (nw - 1)) s2.parsed
      let s3 : Tl := { s2 with parsed := tr.parsed }
      if tr.ok = true then
        match tr.completeTokens with
        | some toks =>
          let word := readCStr s3.buf (words.getD (nw - 1) 0)
          let scan := completeScan s3.token_dict word toks 0 false
          if scan.1 ≠ 0 then
            if scan.2.1 then none
            else some (scan.1, word.length)
          else none
        | none => none
      else none
  else none

/-- `process_escape(tl)`: returns state, printed bytes, and whether a
known sequence matched. -/
def process_escape (s : Tl) : Tl × List Nat × Bool :=
  if s.escape_len = 4 then
    if s.escape.take 4 = [27, 91, 51, 126] then
      -- Delete
      if s.pos < s.buf_len then
        let buf1 := memmoveList s.buf s.pos (s.pos + 1) (s.buf_len - s.pos)
        ({ s with buf := buf1, buf_len := s.buf_len - 1 },
          readCStr buf1 s.pos ++ [32] ++ repList (s.buf_len - s.pos) ESC_LEFT,
          true)
      else (s, [], true)
    else (s, [], false)
  else if s.escape_len = 3 then
    if s.escape.take 3 = [27, 91, 65] then
      let r := history_up s
      (r.1, r.2, true)
    else if s.escape.take 3 = [27, 91, 66] then
      let r := history_down s
      (r.1, r.2, true)
    else if s.escape.take 3 = [27, 91, 68] then
      if 0 < s.pos then ({ s with pos := s.pos - 1 }, ESC_LEFT1, true)
      else (s, [], true)
    else if s.escape.take 3 = [27, 91, 67] then
      if s.pos < s.buf_len then ({ s with pos := s.pos + 1 }, ESC_RIGHT1, true)
      else (s, [], true)
    else if s.escape.take 3 = [27, 79, 72] then
      let r := moveToStart s
      (r.1, r.2, true)
    else if s.escape.take 3 = [27, 79, 70] then
      let r := moveToEnd s
      (r.1, r.2, true)
    else (s, [], false)
  else (s, [], false)

/-- The Ctrl-W leading-spaces loop (each `backspace` decrements `pos`). -/
def ctrlwSpacesGo : Nat → Tl → Tl × List Nat
  | 0, s => (s, [])
  | n + 1, s =>
    if s.pos ≠ 0 ∧ s.buf.getD (s.pos - 1) 0 = 32 then
      let b := backspace s
      let r := ctrlwSpacesGo n b.1
      (r.1, b.2 ++ r.2)
    else (s, [])

def ctrlwSpaces (s : Tl) : Tl × List Nat := ctrlwSpacesGo s.pos s

/-- The Ctrl-W word loop. -/
def ctrlwWordGo : Nat → Tl → Tl × List Nat
  | 0, s => (s, [])
  | n + 1, s =>
    if s.pos ≠ 0 ∧ s.buf.getD (s.pos - 1) 0 ≠ 32 then
      let b := backspace s
      let r := ctrlwWordGo n b.1
      (r.1, b.2 ++ r.2)
    else (s, [])

def ctrlwWord (s : Tl) : Tl × List Nat := ctrlwWordGo s.pos s

/-- `tl_input(tl, c)`: the per-byte dispatcher.  Returns the new state,
the printed bytes, and the C return value (`TRUE` = continue, `FALSE` =
exit). -/
def tl_input (s : Tl) (c : Nat) : Tl × List Nat × Bool :=
  if s.escape_len ≠ 0 then
    let s1 : Tl := { s with escape := s.escape.set s.escape_len c,
                            escape_len := s.escape_len + 1 }
    let pe := process_escape s1
    if pe.2.2 then ({ pe.1 with escape_len := 0 }, pe.2.1, true)
    else if s1.escape_len = TL_MAX_ESCAPE_LEN then
      ({ pe.1 with escape_len := 0 }, pe.2.1, true)
    else (pe.1, pe.2.1, true)
  else if c = 27 then
    ({ s with escape := s.escape.set s.escape_len c,
              escape_len := s.escape_len + 1 }, [], true)
  else if c = 13 ∨ c = 10 then
    let p := process_line s
    (p.1, p.2.1, true)
  else if c = 9 then
    if s.buf_len = s.pos then
      let r := complete s
      (r.1, r.2, true)
    else (s, [], true)
  else if c = 127 then
    -- Backspace
    if s.pos ≠ 0 then
      let b := backspace s
      (b.1, b.2, true)
    else (s, [], true)
  else if c = 1 then
    -- Ctrl-a
    let r := moveToStart s
    (r.1, r.2, true)
  else if c = 3 then
    -- Ctrl-c
    let p := process_line { s with buf_len := 0 }
    (p.1, [94, 67] ++ p.2.1, true)
  else if c = 5 then
    -- Ctrl-e
    let r := moveToEnd s
    (r.1, r.2, true)
  else if c = 11 then
    -- Ctrl-k
    if s.pos < s.buf_len then
      ({ s with buf_len := s.pos, buf := s.buf.set s.pos 0 },
        List.replicate (s.buf_len - s.pos) 32 ++
          repList (s.buf_len - s.pos) ESC_LEFT, true)
    else (s, [], true)
  else if c = 12 then
    -- Ctrl-l
    (s, ESC_CLS ++ s.prompt ++ readCStr s.buf 0, true)
  else if c = 16 then
    -- Ctrl-p
    let r := history_up s
    (r.1, r.2, true)
  else if c = 14 then
    -- Ctrl-n
    let r := history_down s
    (r.1, r.2, true)
  else if c = 23 then
    -- Ctrl-w
    let r1 := ctrlwSpaces s
    let r2 := ctrlwWord r1.1
    (r2.1, r1.2 ++ r2.2, true)
  else if c = 4 then
    -- Ctrl-d on empty line exits.
    (s, [], if s.buf_len = 0 then false else true)
  else if 32 ≤ c ∧ c ≤ 126 then
    let a := if s.buf_len < TL_MAX_LINE_LEN - 1 then add_char s c else (s, [])
    ({ a.1 with hist_step := -1 }, a.2, true)
  else (s, [], true)

/-- `tl_init(tl, tokens_top, token_dict, printfunc, user)`. -/
def tl_init (tokens_top : List TToken) (dict : List (List Nat)) : Tl :=
  { buf := List.replicate TL_MAX_LINE_LEN 0, buf_len := 0, pos := 0,
    escape := List.replicate TL_MAX_ESCAPE_LEN 0, escape_len := 0,
    prompt := [], token_levels := [tokens_top], token_level := 0,
    token_dict := dict,
    hist_buf := List.replicate TL_MAX_HISTORY_SIZE 0, hist_begin := 0,
    hist_end := 0, hist_step := -1, parsed := parsed0, hasCallback := false }

/-- `tl_set_prompt(tl, prompt)`. -/
def tl_set_prompt (s : Tl) (p : List Nat) : Tl × List Nat :=
  ({ s with prompt := p }, p)

/-- `tl_set_callback(tl, callback)`. -/
def tl_set_callback (s : Tl) : Tl := { s with hasCallback := true }

/-- Feed a byte string to `tl_input`, accumulating output and the last
return value. -/
def tl_run (s : Tl) : List Nat → Tl × List Nat × Bool
  | [] => (s, [], true)
  | c :: cs =>
    let r := tl_input s c
    let rr := tl_run r.1 cs
    (rr.1, r.2.1 ++ rr.2.1, rr.2.2)

/-- The current line: `buf[0..buf_len)`. -/
def lineContent (s : Tl) : List Nat := s.buf.take s.buf_len

/-- `List.set` at an index past the taken prefix does not change it. -/
theorem take_set_of_le (l : List Nat) (i n : Nat) (a : Nat) (h : n ≤ i) :
    (l.set i a).take n = l.take n := by
  induction l generalizing i n with
  | nil => simp
  | cons b bs ih =>
    match i, n with
    | _, 0 => simp
    | 0, n + 1 => omega
    | i + 1, n + 1 => simp [List.set, List.take_succ_cons, ih i n (by omega)]

/-- `backspace` decrements `buf_len` and `pos` and deletes the byte left
of the cursor from the line. -/
theorem backspace_spec (s : Tl) (hlb : s.buf.length = TL_MAX_LINE_LEN)
    (hpos : 0 < s.pos) (hpb : s.pos ≤ s.buf_len)
    (hbl : s.buf_len < TL_MAX_LINE_LEN) :
    (backspace s).1.buf_len = s.buf_len - 1 ∧
    (backspace s).1.pos = s.pos - 1 ∧
    lineContent (backspace s).1 =
      s.buf.take (s.pos - 1) ++ (s.buf.drop s.pos).take (s.buf_len - s.pos) := by
  rw [TL_MAX_LINE_LEN] at hlb hbl
  by_cases hq : s.pos = s.buf_len
  · have hbs : backspace s = ({ s with buf := s.buf.set (s.buf_len - 1) 0,
                                        buf_len := s.buf_len - 1,
                                        pos := s.pos - 1 }, ESC_BSP) := by
      unfold backspace; rw [if_pos hq]
    rw [hbs]
    refine ⟨rfl, rfl, ?_⟩
    unfold lineContent
    simp only
    rw [hq, Nat.sub_self, List.take_zero, List.append_nil]
    exact take_set_of_le s.buf (s.buf_len - 1) (s.buf_len - 1) 0 le_rfl
  · have hbs : backspace s =
        ({ s with buf := memmoveList s.buf (s.pos - 1) s.pos (s.buf_len - s.pos + 1),
                  buf_len := s.buf_len - 1,
                  pos := s.pos - 1 },
          ESC_LEFT ++ readCStr (memmoveList s.buf (s.pos - 1) s.pos
            (s.buf_len - s.pos + 1)) (s.pos - 1) ++ [32] ++
            repList (s.buf_len - s.pos + 1) ESC_LEFT) := by
      unfold backspace; rw [if_neg hq]
    rw [hbs]
    refine ⟨rfl, rfl, ?_⟩
    unfold lineContent memmoveList
    simp only
    have hA : (s.buf.take (s.pos - 1)).length = s.pos - 1 := by
      rw [List.length_take]; omega
    have hAB : (s.buf.take (s.pos - 1) ++
        (s.buf.drop s.pos).take (s.buf_len - s.pos + 1)).length = s.buf_len := by
      rw [List.length_append, List.length_take, List.length_take,
        List.length_drop]
      omega
    rw [show s.pos - 1 + (s.buf_len - s.pos + 1) = s.buf_len from by omega]
    rw [List.take_take]
    rw [show min (s.buf_len - 1) s.buf.length = s.buf_len - 1 from by omega]
    rw [List.take_append_eq_append_take, hAB]
    rw [show s.buf_len - 1 - s.buf_len = 0 from by omega, List.take_zero,
      List.append_nil]
    rw [List.take_append_eq_append_take, hA]
    rw [List.take_of_length_le (by rw [hA]; omega :
      (s.buf.take (s.pos - 1)).length ≤ s.buf_len - 1)]
    rw [show s.buf_len - 1 - (s.pos - 1) = s.buf_len - s.pos from by omega]
    rw [List.take_take]
    rw [show min (s.buf_len - s.pos) (s.buf_len - s.pos + 1) = s.buf_len - s.pos
      from by omega]

/-- C2, counterexample.  In the state reached by typing `ab` (cursor 2, no
escape pending), feeding byte 0x08 leaves `line_len` and `cursor` at 2 —
nothing is deleted, refuting the claim that 0x08 backspaces. -/
theorem C2_cex :
    ((tl_run (tl_init [] []) [97, 98]).1.buf_len = 2 ∧
     (tl_run (tl_init [] []) [97, 98]).1.pos = 2 ∧
     (tl_run (tl_init [] []) [97, 98]).1.escape_len = 0) ∧
    (tl_input (tl_run (tl_init [] []) [97, 98]).1 8).1.buf_len = 2 ∧
    (tl_input (tl_run (tl_init [] []) [97, 98]).1 8).1.pos = 2 ∧
    (tl_input (tl_run (tl_init [] []) [97, 98]).1 8).2.1 = [] := by decide

/-- C2, amended: with no escape sequence in progress and the cursor
positive, byte 0x7F deletes the character left of the cursor (decrementing
`buf_len` and `pos` and shifting the tail left); byte 0x08 falls through
the dispatcher and does nothing. -/
theorem C2_backspace (s : Tl) (hesc : s.escape_len = 0)
    (hlb : s.buf.length = TL_MAX_LINE_LEN) (hpos : 0 < s.pos)
    (hpb : s.pos ≤ s.buf_len) (hbl : s.buf_len < TL_MAX_LINE_LEN) :
    ((tl_input s 127).1.buf_len = s.buf_len - 1 ∧
     (tl_input s 127).1.pos = s.pos - 1 ∧
     lineContent (tl_input s 127).1 =
       s.buf.take (s.pos - 1) ++ (s.buf.drop s.pos).take (s.buf_len - s.pos)) ∧
    (tl_input s 8).1 = s ∧ (tl_input s 8).2.1 = [] := by
  constructor
  · have h127 : tl_input s 127 = ((backspace s).1, (backspace s).2, true) := by
      unfold tl_input
      norm_num [hesc, hpos.ne']
    rw [h127]
    exact backspace_spec s hlb hpos hpb hbl
  · have h8 : tl_input s 8 = (s, [], true) := by
      unfold tl_input
      norm_num [hesc]
    rw [h8]
    exact ⟨rfl, rfl⟩

set_option maxRecDepth 4096 in
/-- C2, witness: in the concrete state reached by typing `ab`, 0x7F
deletes `b`. -/
theorem C2_backspace_witness :
    lineContent (tl_input (tl_run (tl_init [] []) [97, 98]).1 127).1 = [97] ∧
    (tl_input (tl_run (tl_init [] []) [97, 98]).1 127).1.buf_len = 1 := by
  have h := C2_backspace (tl_run (tl_init [] []) [97, 98]).1 (by decide)
    (by decide) (by decide) (by decide) (by decide)
  refine ⟨?_, ?_⟩
  · rw [h.1.2.2]; decide
  · rw [h.1.1]; decide

/-- C5: with no escape in progress, Ctrl-D (0x04) returns EXIT (`FALSE`)
exactly when the line buffer is empty; on a non-empty buffer it returns
CONTINUE, changes nothing, and prints nothing. -/
theorem C5_ctrl_d (s : Tl) (hesc : s.escape_len = 0) :
    ((tl_input s 4).2.2 = false ↔ s.buf_len = 0) ∧
    (s.buf_len ≠ 0 → (tl_input s 4).1 = s ∧ (tl_input s 4).2.1 = []) := by
  have h4 : tl_input s 4 = (s, [], if s.buf_len = 0 then false else true) := by
    unfold tl_input
    norm_num [hesc]
  rw [h4]
  constructor
  · by_cases hb : s.buf_len = 0 <;> simp [hb]
  · intro hb
    exact ⟨rfl, rfl⟩

set_option maxRecDepth 4096 in
/-- C5, witness: Ctrl-D exits on the fresh empty engine and is a no-op
after typing `a`. -/
theorem C5_ctrl_d_witness :
    (tl_input (tl_init [] []) 4).2.2 = false ∧
    (tl_input (tl_run (tl_init [] []) [97]).1 4).2.2 = true ∧
    (tl_input (tl_run (tl_init [] []) [97]).1 4).1 =
      (tl_run (tl_init [] []) [97]).1 := by
  have h0 := C5_ctrl_d (tl_init [] []) (by decide)
  have h1 := C5_ctrl_d (tl_run (tl_init [] []) [97]).1 (by decide)
  refine ⟨h0.1.mpr (by decide), ?_, (h1.2 (by decide)).1⟩
  have hret : ¬((tl_input (tl_run (tl_init [] []) [97]).1 4).2.2 = false) :=
    fun hf => (by decide :
      ¬((tl_run (tl_init [] []) [97]).1.buf_len = 0)) (h1.1.mp hf)
  simpa using hret

/-- The grammar for the C4 failing input: a single command
`configuration` with token ID 1. -/
def C4_grammar : List TToken := [⟨1, 0, [], none⟩]

def C4_dict : List (List Nat) := [[], strBytes (r"configuration")]

/-- The C4 failing input: 118 spaces, the word `confi`, then TAB. -/
def C4_input : List Nat := List.replicate 118 32 ++ strBytes (r"confi") ++ [9]

set_option maxRecDepth 100000 in
/-- C4: the claimed invariant `line_len < MAX_LINE` is violated by the
code.  `complete()` appends a unique completion with `add_char` without
any bounds check: typing 118 spaces and `confi` (`buf_len` 123, accepted
byte-by-byte by the guarded printable path) and pressing TAB appends the
8-byte suffix of `configuration` plus a space, driving `buf_len` to 132,
at and past `TL_MAX_LINE_LEN` = 128 — in the C, writes beyond the end of
`tl->buf`. -/
theorem C4_completion_overflow :
    (tl_run (tl_init C4_grammar C4_dict) C4_input).1.buf_len = 132 ∧
    ¬((tl_run (tl_init C4_grammar C4_dict) C4_input).1.buf_len <
      TL_MAX_LINE_LEN) := by decide

/-- C7: feeding CR or LF with no escape in progress submits the line;
whatever happens, afterwards `buf_len = 0`, `pos = 0`, `escape_len = 0`
and the printed bytes end with the prompt; and the parse callback is
invoked only if both `split_line` and the strict `tokenize` succeeded on
that line. -/
theorem C7_submit (s : Tl) (c : Nat) (hesc : s.escape_len = 0)
    (hc : c = 13 ∨ c = 10) :
    (tl_input s c).1.buf_len = 0 ∧
    (tl_input s c).1.pos = 0 ∧
    (tl_input s c).1.escape_len = 0 ∧
    (∃ pre, (tl_input s c).2.1 = pre ++ s.prompt) ∧
    ((process_line s).2.2 = true →
      (tl_split (history_add s) false).2.2.2.1 = true ∧
      (tokenize (tl_split (history_add s) false).1.buf
        (tl_split (history_add s) false).1.token_dict
        (tlLevel (tl_split (history_add s) false).1) false
        (tl_split (history_add s) false).2.1
        (tl_split (history_add s) false).1.parsed).ok = true) := by
  have hin : tl_input s c = ((process_line s).1, (process_line s).2.1, true) := by
    rcases hc with hc | hc <;> subst hc <;> unfold tl_input <;> norm_num [hesc]
  rw [hin]
  refine ⟨rfl, rfl, rfl, ⟨_, rfl⟩, ?_⟩
  intro hcb
  unfold process_line at hcb
  by_cases hb : s.buf_len = 0
  · simp only [hb, if_pos rfl] at hcb
    exact absurd hcb (by simp)
  · simp only [if_neg hb] at hcb
    by_cases hok : (tl_split (history_add s) false).2.2.2.1 = true
    · simp only [hok, reduceIte] at hcb
      by_cases hnw : (tl_split (history_add s) false).2.2.1 = 0
      · simp only [hnw, reduceIte] at hcb
        exact absurd hcb (by simp)
      · simp only [if_neg hnw] at hcb
        by_cases hh : readCStr (tl_split (history_add s) false).1.buf
            ((tl_split (history_add s) false).2.1.headD 0) = HELP_W
        · simp only [hh, reduceIte] at hcb
          by_cases hlast : (tokenize (tl_split (history_add s) false).1.buf
              (tl_split (history_add s) false).1.token_dict
              (tlLevel (tl_split (history_add s) false).1) true
              (tl_split (history_add s) false).2.1
              (tl_split (history_add s) false).1.parsed).parsed.last.isSome = true
          · simp only [hlast, reduceIte] at hcb
            exact absurd hcb (by simp)
          · simp only [if_neg hlast] at hcb
            exact absurd hcb (by simp)
        · simp only [if_neg hh] at hcb
          by_cases hh2 : readCStr (tl_split (history_add s) false).1.buf
              ((tl_split (history_add s) false).2.1.headD 0) = HISTORY_W
          · simp only [hh2, reduceIte] at hcb
            exact absurd hcb (by simp)
          · simp only [if_neg hh2] at hcb
            by_cases htok : (tokenize (tl_split (history_add s) false).1.buf
                (tl_split (history_add s) false).1.token_dict
                (tlLevel (tl_split (history_add s) false).1) false
                (tl_split (history_add s) false).2.1
                (tl_split (history_add s) false).1.parsed).ok = false
            · simp only [htok, reduceIte] at hcb
              exact absurd hcb (by simp)
            · refine ⟨hok, ?_⟩
              cases hval : (tokenize (tl_split (history_add s) false).1.buf
                  (tl_split (history_add s) false).1.token_dict
                  (tlLevel (tl_split (history_add s) false).1) false
                  (tl_split (history_add s) false).2.1
                  (tl_split (history_add s) false).1.parsed).ok
              · exact absurd hval htok
              · rfl
    · have hokf : (tl_split (history_add s) false).2.2.2.1 = false := by
        cases hv : (tl_split (history_add s) false).2.2.2.1
        · rfl
        · exact absurd hv hok
      simp only [hokf, reduceIte] at hcb
      exact absurd hcb (by simp)

set_option maxRecDepth 4096 in
/-- C7, witness: with prompt `>`, typing `x` then CR resets the line and
re-emits the prompt at the end of the output. -/
theorem C7_submit_witness :
    (tl_input (tl_run (tl_set_prompt (tl_init [] []) [62]).1 [120]).1 13).1.buf_len
      = 0 ∧
    ∃ pre, (tl_input (tl_run (tl_set_prompt (tl_init [] []) [62]).1 [120]).1
      13).2.1 = pre ++ [62] := by
  have h := C7_submit (tl_run (tl_set_prompt (tl_init [] []) [62]).1 [120]).1 13
    (by decide) (Or.inl rfl)
  refine ⟨h.1, ?_⟩
  obtain ⟨pre, hpre⟩ := h.2.2.2.1
  refine ⟨pre, ?_⟩
  rw [hpre]
  rw [show (tl_run (tl_set_prompt (tl_init [] []) [62]).1 [120]).1.prompt = [62]
    from by decide]

/-- Everything in the engine state except the line buffer triple. -/
def edFrame (s : Tl) :=
  (s.escape, s.escape_len, s.prompt, s.token_levels, s.token_level,
   s.token_dict, s.hist_buf, s.hist_begin, s.hist_end, s.hist_step,
   s.parsed, s.hasCallback)

theorem backspace_frame (s : Tl) : edFrame (backspace s).1 = edFrame s := by
  unfold backspace edFrame; split <;> rfl

theorem moveToEnd_state (s : Tl) (h : s.pos ≤ s.buf_len) :
    (moveToEnd s).1.pos = s.buf_len ∧ (moveToEnd s).1.buf_len = s.buf_len ∧
    (moveToEnd s).1.buf = s.buf ∧ edFrame (moveToEnd s).1 = edFrame s := by
  have main : ∀ n (t : Tl), t.buf_len - t.pos = n → t.pos ≤ t.buf_len →
      (moveToEndGo n t).1.pos = t.buf_len ∧
      (moveToEndGo n t).1.buf_len = t.buf_len ∧
      (moveToEndGo n t).1.buf = t.buf ∧
      edFrame (moveToEndGo n t).1 = edFrame t := by
    intro n
    induction n with
    | zero =>
      intro t hn ht
      refine ⟨?_, rfl, rfl, rfl⟩
      show t.pos = t.buf_len
      omega
    | succ n ih =>
      intro t hn ht
      unfold moveToEndGo
      rw [if_pos (by omega)]
      simp only
      obtain ⟨h1, h2, h3, h4⟩ := ih { t with pos := t.pos + 1 }
        (by simp; omega) (by simp; omega)
      exact ⟨h1.trans rfl, h2.trans rfl, h3.trans rfl, h4.trans rfl⟩
  exact main (s.buf_len - s.pos) s rfl h

theorem bsLoopGo_frame : ∀ n (t : Tl), edFrame (bsLoopGo n t).1 = edFrame t := by
  intro n
  induction n with
  | zero => intro t; rfl
  | succ n ih =>
    intro t
    unfold bsLoopGo
    by_cases h0 : t.pos = 0
    · rw [if_pos h0]
    · rw [if_neg h0]
      simp only
      rw [ih (backspace t).1]
      exact backspace_frame t

theorem bsLoop_frame (s : Tl) : edFrame (bsLoop s).1 = edFrame s :=
  bsLoopGo_frame s.pos s

theorem bsLoop_empties (s : Tl) (h : s.pos = s.buf_len) :
    (bsLoop s).1.pos = 0 ∧ (bsLoop s).1.buf_len = 0 := by
  have main : ∀ n (t : Tl), t.pos = n → t.pos = t.buf_len →
      (bsLoopGo n t).1.pos = 0 ∧ (bsLoopGo n t).1.buf_len = 0 := by
    intro n
    induction n with
    | zero =>
      intro t hn ht
      show t.pos = 0 ∧ t.buf_len = 0
      omega
    | succ n ih =>
      intro t hn ht
      unfold bsLoopGo
      rw [if_neg (by omega)]
      simp only
      have hbt : backspace t = ({ t with buf := t.buf.set (t.buf_len - 1) 0,
                                          buf_len := t.buf_len - 1,
                                          pos := t.pos - 1 }, ESC_BSP) := by
        unfold backspace; rw [if_pos ht]
      exact ih (backspace t).1 (by rw [hbt]; simp; omega)
        (by rw [hbt]; simp; omega)
  exact main s.pos s rfl h

/-- `delete_line` empties the line and touches nothing else. -/
theorem delete_line_spec (s : Tl) (h : s.pos ≤ s.buf_len) :
    (delete_line s).1.pos = 0 ∧ (delete_line s).1.buf_len = 0 ∧
    edFrame (delete_line s).1 = edFrame s := by
  unfold delete_line
  simp only
  obtain ⟨h1, h2, h3, h4⟩ := moveToEnd_state s h
  have hb := bsLoop_empties (moveToEnd s).1 (by rw [h1, h2])
  exact ⟨hb.1, hb.2, (bsLoop_frame (moveToEnd s).1).trans h4⟩

/-- A zero byte at `off` reads as the empty C string. -/
theorem readCStr_eq_nil (bs : List Nat) (off : Nat)
    (h : bs.getD off 0 = 0) : readCStr bs off = [] := by
  unfold readCStr
  cases hd : bs.drop off with
  | nil => rfl
  | cons b rest =>
    have hb : b = 0 := by
      have h0 : (bs.drop off).getD 0 0 = bs.getD off 0 := by
        simp [List.getD_eq_getElem?_getD, List.getElem?_drop]
      rw [hd] at h0
      simp only [List.getD_cons_zero] at h0
      exact h0.trans h
    rw [List.takeWhile_cons]
    simp [hb]

/-- The forward skip of `history_down` stops at the terminator of the
entry starting at `st`. -/
theorem hdSkip_reach (hbuf : List Nat) (e : Nat) (he : e ≤ TL_MAX_HISTORY_SIZE)
    (hterm : hbuf.getD (e - 1) 0 = 0) :
    ∀ k st, e - 1 - st = k → st ≤ e - 1 →
      (∀ j, st ≤ j → j + 1 < e → hbuf.getD j 0 ≠ 0) →
      ∀ fuel, k < fuel → hdSkip hbuf fuel st = e - 1 := by
  intro k
  induction k with
  | zero =>
    intro st hk hle _ fuel hfuel
    match fuel with
    | fuel + 1 =>
      have hst : st = e - 1 := by omega
      unfold hdSkip
      rw [hst, if_neg (by simpa using hterm)]
  | succ k ih =>
    intro st hk hle hch fuel hfuel
    match fuel with
    | fuel + 1 =>
      have hlt : st < e - 1 := by omega
      have hnz : hbuf.getD st 0 ≠ 0 := hch st le_rfl (by omega)
      unfold hdSkip
      rw [if_pos (by simpa using hnz)]
      have hiw : incWrap st = st + 1 := by
        unfold incWrap TL_MAX_HISTORY_SIZE
        rw [TL_MAX_HISTORY_SIZE] at he
        rw [if_neg (by omega)]
      rw [hiw]
      exact ih (st + 1) (by omega) (by omega)
        (fun j hj hje => hch j (by omega) hje) fuel (by omega)

set_option maxRecDepth 8192 in
/-- C9, counterexample.  Submit `ab`, press up-arrow (Ctrl-P): the newest
entry `ab` is displayed with `hist_step = 0` and `hist_end = 3`.  A single
down-arrow (Ctrl-N) leaves the line empty but sets `hist_step` to
`hist_end` (3), not to the NONE sentinel -1; only a second down-arrow
reaches -1. -/
theorem C9_cex :
    (tl_run (tl_init [] []) [97, 98, 13, 16]).1.hist_step = 0 ∧
    (tl_run (tl_init [] []) [97, 98, 13, 16]).1.hist_end = 3 ∧
    readCStr (tl_run (tl_init [] []) [97, 98, 13, 16]).1.buf 0 = [97, 98] ∧
    (tl_input (tl_run (tl_init [] []) [97, 98, 13, 16]).1 14).1.hist_step = 3 ∧
    ¬((tl_input (tl_run (tl_init [] []) [97, 98, 13, 16]).1 14).1.hist_step
      = -1) ∧
    (tl_input (tl_run (tl_init [] []) [97, 98, 13, 16]).1 14).1.buf_len = 0 := by
  decide

/-- Feeding Ctrl-N with no escape pending dispatches to `history_down`. -/
theorem tl_input_ctrln (t : Tl) (ht : t.escape_len = 0) :
    tl_input t 14 = ((history_down t).1, (history_down t).2, true) := by
  unfold tl_input
  norm_num [ht]

/-- C9, amended: while the newest entry (starting at offset `st`, running
to the terminator at `hist_end - 1`) is displayed during a history walk, a
single down-arrow (Ctrl-N) empties the line buffer and sets `hist_step` to
the newest entry's forward boundary `hist_end`; a second down-arrow then
returns `hist_step` to the NONE sentinel -1 with the line still empty. -/
theorem C9_history_down (s : Tl) (st : Nat) (hesc : s.escape_len = 0)
    (hstep : s.hist_step = (st : Int)) (hpos : s.pos = s.buf_len)
    (hlt : st + 1 < s.hist_end) (hend : s.hist_end < TL_MAX_HISTORY_SIZE)
    (hchars : ∀ j, j < s.hist_end → st ≤ j → j + 1 < s.hist_end →
      s.hist_buf.getD j 0 ≠ 0)
    (hterm : s.hist_buf.getD (s.hist_end - 1) 0 = 0)
    (hgap : s.hist_buf.getD s.hist_end 0 = 0) :
    (tl_input s 14).1.hist_step = (s.hist_end : Int) ∧
    (tl_input s 14).1.buf_len = 0 ∧ (tl_input s 14).1.pos = 0 ∧
    (tl_input (tl_input s 14).1 14).1.hist_step = -1 ∧
    (tl_input (tl_input s 14).1 14).1.buf_len = 0 := by
  have hple : s.pos ≤ s.buf_len := le_of_eq hpos
  obtain ⟨hd1, hd2, hdF⟩ := delete_line_spec s hple
  have hdEsc : (delete_line s).1.escape_len = s.escape_len :=
    congrArg (fun x => x.2.1) hdF
  have hdHE : (delete_line s).1.hist_end = s.hist_end :=
    congrArg (fun x => x.2.2.2.2.2.2.2.2.1) hdF
  have h14 : tl_input s 14 = ((history_down s).1, (history_down s).2, true) :=
    tl_input_ctrln s hesc
  have hskip : hdSkip s.hist_buf (TL_MAX_HISTORY_SIZE + 1) st = s.hist_end - 1 :=
    hdSkip_reach s.hist_buf s.hist_end (le_of_lt hend) hterm
      (s.hist_end - 1 - st) st rfl (by omega)
      (fun j hj1 hj2 => hchars j (by omega) hj1 hj2)
      (TL_MAX_HISTORY_SIZE + 1) (by omega)
  have hiw : incWrap (s.hist_end - 1) = s.hist_end := by
    unfold incWrap
    rw [if_neg (by omega)]
    omega
  have hrd : readCStr s.hist_buf s.hist_end = [] :=
    readCStr_eq_nil s.hist_buf s.hist_end hgap
  have hdown : (history_down s).1 =
      { (set_line (delete_line s).1 []).1 with hist_step := (s.hist_end : Int) } := by
    unfold history_down
    rw [hstep]
    rw [if_neg (show ¬((st : Int) = -1) from by omega)]
    rw [if_neg (show ¬((st : Int) = (s.hist_end : Int)) from by
      intro h; omega)]
    simp only [Int.toNat_natCast]
    rw [hskip, hiw, hrd]
  have hcond1 : ¬(TL_MAX_LINE_LEN - 1 < ([] : List Nat).length) := by decide
  have hcond2 : (delete_line s).1.pos = (delete_line s).1.buf_len := by
    rw [hd1, hd2]
  have hsl : set_line (delete_line s).1 [] =
      ({ (delete_line s).1 with
          buf := (writeBytes (delete_line s).1.buf (delete_line s).1.buf_len
            []).set ((delete_line s).1.buf_len + ([] : List Nat).length) 0,
          pos := (delete_line s).1.pos + ([] : List Nat).length,
          buf_len := (delete_line s).1.buf_len + ([] : List Nat).length },
        []) := by
    unfold set_line
    rw [if_neg hcond1, if_pos hcond2]
  have hr1 : (tl_input s 14).1 =
      { (set_line (delete_line s).1 []).1 with hist_step := (s.hist_end : Int) } := by
    rw [h14, hdown]
  have hr1bl : (tl_input s 14).1.buf_len = 0 := by
    rw [hr1]
    show (set_line (delete_line s).1 []).1.buf_len = 0
    rw [hsl]
    show (delete_line s).1.buf_len + ([] : List Nat).length = 0
    rw [hd2]
    rfl
  have hr1pos : (tl_input s 14).1.pos = 0 := by
    rw [hr1]
    show (set_line (delete_line s).1 []).1.pos = 0
    rw [hsl]
    show (delete_line s).1.pos + ([] : List Nat).length = 0
    rw [hd1]
    rfl
  have hr1esc : (tl_input s 14).1.escape_len = 0 := by
    rw [hr1]
    show (set_line (delete_line s).1 []).1.escape_len = 0
    rw [hsl]
    show (delete_line s).1.escape_len = 0
    rw [hdEsc, hesc]
  have hr1he : (tl_input s 14).1.hist_end = s.hist_end := by
    rw [hr1]
    show (set_line (delete_line s).1 []).1.hist_end = s.hist_end
    rw [hsl]
    show (delete_line s).1.hist_end = s.hist_end
    exact hdHE
  have hr1hs : (tl_input s 14).1.hist_step = (s.hist_end : Int) := by
    rw [hr1]
  have h14b : tl_input (tl_input s 14).1 14 =
      ((history_down (tl_input s 14).1).1,
        (history_down (tl_input s 14).1).2, true) :=
    tl_input_ctrln (tl_input s 14).1 hr1esc
  obtain ⟨hd1b, hd2b, hdFb⟩ := delete_line_spec (tl_input s 14).1
    (by rw [hr1pos, hr1bl])
  have hdown2 : (history_down (tl_input s 14).1).1 =
      { (delete_line (tl_input s 14).1).1 with hist_step := -1 } := by
    unfold history_down
    rw [hr1hs]
    rw [if_neg (show ¬((s.hist_end : Int) = -1) from by omega)]
    rw [if_pos (show (s.hist_end : Int) = ((tl_input s 14).1.hist_end : Int)
      from by rw [hr1he])]
  refine ⟨hr1hs, hr1bl, hr1pos, ?_, ?_⟩
  · rw [h14b, hdown2]
  · rw [h14b, hdown2]
    show (delete_line (tl_input s 14).1).1.buf_len = 0
    exact hd2b

set_option maxRecDepth 8192 in
/-- C9, witness: in the state from submitting `ab` then pressing Ctrl-P
(the newest entry `ab` displayed at offset 0, `hist_end` 3), the amended
theorem gives `hist_step = 3` and an empty line after one Ctrl-N, and
`hist_step = -1` after a second. -/
theorem C9_history_down_witness :
    (tl_input (tl_run (tl_init [] []) [97, 98, 13, 16]).1 14).1.hist_step = 3 ∧
    (tl_input (tl_run (tl_init [] []) [97, 98, 13, 16]).1 14).1.buf_len = 0 ∧
    (tl_input (tl_input (tl_run (tl_init [] []) [97, 98, 13, 16]).1 14).1
      14).1.hist_step = -1 := by
  have h := C9_history_down (tl_run (tl_init [] []) [97, 98, 13, 16]).1 0
    (by decide) (by decide) (by decide) (by decide) (by decide)
    (by decide) (by decide) (by decide)
  refine ⟨?_, h.2.1, h.2.2.2.1⟩
  rw [h.1]
  decide

/-! ## Lemmas for the TAB-completion frame effect (C10) -/

/-- Setting an index to the value it already holds changes nothing. -/
theorem set_getD_self (l : List Nat) (i : Nat) (v : Nat)
    (h : l.getD i 0 = v) : l.set i v = l := by
  induction l generalizing i with
  | nil => rfl
  | cons b bs ih =>
    match i with
    | 0 => simp at h; simp [h]
    | i + 1 =>
      simp only [List.getD_cons_succ] at h
      simp [List.set, ih i h]

/-- The word count of the split loop never decreases. -/
theorem splitGo_nw_mono (bs : List Nat) :
    ∀ state quoted nw i, nw ≤ (splitGo state quoted nw i bs).nw := by
  induction bs with
  | nil => intro state quoted nw i; exact le_rfl
  | cons b bs ih =>
    intro state quoted nw i
    by_cases hcap : TL_MAX_WORDS ≤ nw
    · simp [splitGo, hcap]
    · by_cases hst : state = 1
      · by_cases hsp : b = 32
        · simpa [splitGo, hcap, hst, hsp] using ih 1 quoted nw (i + 1)
        · simp only [splitGo, if_neg hcap, if_pos hst, if_neg hsp]
          have h := ih 2 (if b = 34 then true else quoted) (nw + 1) (i + 1)
          show nw ≤ (splitGo 2 (if b = 34 then true else quoted) (nw + 1)
            (i + 1) bs).nw
          omega
      · by_cases hc1 : quoted = true ∧ b = 34
        · simpa [splitGo, hcap, hst, hc1] using ih 1 false nw (i + 1)
        · by_cases hc2 : quoted = false ∧ b = 32
          · simpa [splitGo, hcap, hst, hc1, hc2] using ih 1 quoted nw (i + 1)
          · simpa [splitGo, hcap, hst, hc1, hc2] using ih state quoted nw (i + 1)

/-- If the split loop found no word starting from the seek state, the
buffer was all spaces and is untouched. -/
theorem splitGo_nw_zero_buf (bs : List Nat) :
    ∀ quoted i, (splitGo 1 quoted 0 i bs).nw = 0 →
      (splitGo 1 quoted 0 i bs).buf = bs := by
  induction bs with
  | nil => intro quoted i _; rfl
  | cons b bs ih =>
    intro quoted i hnw
    have hcap : ¬TL_MAX_WORDS ≤ 0 := by unfold TL_MAX_WORDS; omega
    by_cases hsp : b = 32
    · subst hsp
      simp only [splitGo, if_neg hcap, reduceIte] at hnw ⊢
      rw [ih quoted (i + 1) hnw]
    · exfalso
      simp only [splitGo, if_neg hcap, reduceIte, if_neg hsp] at hnw
      have h := splitGo_nw_mono bs 2 (if b = 34 then true else quoted) 1 (i + 1)
      have hnw2 : (splitGo 2 (if b = 34 then true else quoted) 1 (i + 1)
        bs).nw = 0 := hnw
      omega

/-- `unsplitGo` distributes over an append whose right part is NUL-free. -/
theorem unsplitGo_append (xs ys : List Nat) (hy : 0 ∉ ys) :
    ∀ q, unsplitGo q (xs ++ ys) = unsplitGo q xs ++ ys := by
  induction xs with
  | nil => intro q; simp [unsplitGo, unsplitGo_noNul q ys hy]
  | cons b bs ih =>
    intro q
    by_cases h34 : b = 34
    · simp [unsplitGo, h34, ih]
    · by_cases h0 : b = 0
      · by_cases hq : q <;> simp [unsplitGo, h34, h0, hq, ih]
      · simp [unsplitGo, h34, h0, ih]

/-- Setting the byte just past a prefix then taking one more yields an
append. -/
theorem take_succ_set (l : List Nat) (i : Nat) (c : Nat) (h : i < l.length) :
    (l.set i c).take (i + 1) = l.take i ++ [c] := by
  induction l generalizing i with
  | nil => simp at h
  | cons b bs ih =>
    match i with
    | 0 => simp
    | i + 1 =>
      simp only [List.length_cons] at h
      simp [List.set, List.take_succ_cons, ih i (by omega)]

theorem getD_set_self (l : List Nat) (i : Nat) (v : Nat) (h : i < l.length) :
    (l.set i v).getD i 0 = v := by
  induction l generalizing i with
  | nil => simp at h
  | cons b bs ih =>
    match i with
    | 0 => simp
    | i + 1 =>
      simp only [List.length_cons] at h
      show (b :: bs.set i v).getD (i + 1) 0 = v
      rw [List.getD_cons_succ]
      exact ih i (by omega)

theorem add_char_frame (s : Tl) (c : Nat) :
    edFrame (add_char s c).1 = edFrame s := by
  unfold add_char edFrame; split <;> rfl

/-- `addChars` appends the given NUL-free bytes at the end of the line
(all cursor-at-end `add_char` calls), keeping the terminator and frame. -/
theorem addChars_spec : ∀ (cs : List Nat) (s : Tl), s.pos = s.buf_len →
    s.buf_len + cs.length + 1 ≤ s.buf.length →
    s.buf.getD s.buf_len 0 = 0 →
    (addChars s cs).1.buf_len = s.buf_len + cs.length ∧
    (addChars s cs).1.pos = s.buf_len + cs.length ∧
    (addChars s cs).1.buf.length = s.buf.length ∧
    (addChars s cs).1.buf.take (s.buf_len + cs.length) =
      s.buf.take s.buf_len ++ cs ∧
    (addChars s cs).1.buf.getD (s.buf_len + cs.length) 0 = 0 ∧
    edFrame (addChars s cs).1 = edFrame s := by
  intro cs
  induction cs with
  | nil =>
    intro s hpos _ hterm
    exact ⟨by simp [addChars], by simp [addChars, hpos], rfl,
      by simp [addChars], by simpa [addChars] using hterm, rfl⟩
  | cons c cs ih =>
    intro s hpos hroom hterm
    have hset : add_char s c =
        ({ s with buf := (s.buf.set s.buf_len c).set (s.buf_len + 1) 0,
                  buf_len := s.buf_len + 1, pos := s.pos + 1 },
          readCStr ((s.buf.set s.buf_len c).set (s.buf_len + 1) 0) s.buf_len) := by
      unfold add_char
      rw [if_pos hpos]
    have hlen1 : ((s.buf.set s.buf_len c).set (s.buf_len + 1) 0).length
        = s.buf.length := by simp
    have hlcons : (c :: cs).length = cs.length + 1 := rfl
    have hroom2 : (s.buf_len + 1) + cs.length + 1 ≤ s.buf.length := by
      rw [hlcons] at hroom; omega
    have hterm2 : ((s.buf.set s.buf_len c).set (s.buf_len + 1) 0).getD
        (s.buf_len + 1) 0 = 0 := by
      apply getD_set_self
      simp
      omega
    have htake1 : ((s.buf.set s.buf_len c).set (s.buf_len + 1) 0).take
        (s.buf_len + 1) = s.buf.take s.buf_len ++ [c] := by
      rw [take_set_of_le _ _ _ _ le_rfl, take_succ_set _ _ _ (by omega)]
    obtain ⟨i1, i2, i3, i4, i5, i6⟩ := ih (add_char s c).1
      (by rw [hset]; show s.pos + 1 = s.buf_len + 1; omega)
      (by rw [hset]; show s.buf_len + 1 + cs.length + 1 ≤ _; rw [hlen1]; omega)
      (by rw [hset]; exact hterm2)
    have hbl1 : (add_char s c).1.buf_len = s.buf_len + 1 := by rw [hset]
    have hch : addChars s (c :: cs) = ((addChars (add_char s c).1 cs).1,
        (add_char s c).2 ++ (addChars (add_char s c).1 cs).2) := by
      simp only [addChars]
    rw [hch]
    simp only
    rw [hbl1] at i1 i2 i4 i5
    refine ⟨by rw [i1, hlcons]; omega, by rw [i2, hlcons]; omega, ?_, ?_, ?_, ?_⟩
    · rw [i3, hset, hlen1]
    · rw [show s.buf_len + (c :: cs).length = s.buf_len + 1 + cs.length from by
        rw [hlcons]; omega]
      rw [i4]
      rw [show (add_char s c).1.buf = (s.buf.set s.buf_len c).set (s.buf_len + 1) 0
        from by rw [hset]]
      rw [htake1, List.append_assoc]
      rfl
    · rw [show s.buf_len + (c :: cs).length = s.buf_len + 1 + cs.length from by
        rw [hlcons]; omega]
      exact i5
    · exact i6.trans (add_char_frame s c)

/-- `tl_unsplit` after a (possibly failed) quote-clean split restores the
buffer exactly. -/
theorem tl_unsplit_restore (s t : Tl) (hbl : s.buf_len < s.buf.length)
    (hterm : s.buf.getD s.buf_len 0 = 0)
    (hclean : quoteClean (s.buf.take s.buf_len))
    (ht : t.buf = (splitGo 1 false 0 0 (s.buf.take s.buf_len)).buf ++
      s.buf.drop s.buf_len)
    (htl : t.buf_len = s.buf_len) :
    (tl_unsplit t).buf = s.buf := by
  obtain ⟨hnul, hcg⟩ := hclean
  have hbslen : (s.buf.take s.buf_len).length = s.buf_len := by
    rw [List.length_take]; omega
  have hrlen : ((splitGo 1 false 0 0 (s.buf.take s.buf_len)).buf).length
      = s.buf_len := by rw [splitGo_length, hbslen]
  unfold tl_unsplit
  simp only
  rw [ht, htl]
  rw [show ((splitGo 1 false 0 0 (s.buf.take s.buf_len)).buf ++
      s.buf.drop s.buf_len).take s.buf_len =
      (splitGo 1 false 0 0 (s.buf.take s.buf_len)).buf from by
    rw [List.take_append_eq_append_take, hrlen, Nat.sub_self, List.take_zero,
      List.append_nil, List.take_of_length_le (le_of_eq hrlen)]]
  have hdrop : ∀ (A B : List Nat), A.length = s.buf_len →
      (A ++ B).drop s.buf_len = B := by
    intro A B hA
    rw [← hA, List.drop_left]
  rw [hdrop _ _ hrlen]
  rw [unsplit_splitGo (s.buf.take s.buf_len) 1 false 0 0 hnul hcg]
  rw [List.take_append_drop]
  exact set_getD_self s.buf s.buf_len 0 hterm

/-- The variant of the restore lemma for the unique-match branch: the
buffer holds the split image plus NUL-free appended bytes. -/
theorem tl_unsplit_restore_append (s t : Tl) (ext : List Nat)
    (hbl : s.buf_len < s.buf.length)
    (hclean : quoteClean (s.buf.take s.buf_len)) (hext : 0 ∉ ext)
    (ht : t.buf.take t.buf_len =
      (splitGo 1 false 0 0 (s.buf.take s.buf_len)).buf ++ ext)
    (htl : t.buf_len = s.buf_len + ext.length) :
    (tl_unsplit t).buf.take t.buf_len = s.buf.take s.buf_len ++ ext ∧
    (tl_unsplit t).buf_len = t.buf_len ∧ (tl_unsplit t).pos = t.pos := by
  obtain ⟨hnul, hcg⟩ := hclean
  have hbslen : (s.buf.take s.buf_len).length = s.buf_len := by
    rw [List.length_take]; omega
  have hrlen : ((splitGo 1 false 0 0 (s.buf.take s.buf_len)).buf).length
      = s.buf_len := by rw [splitGo_length, hbslen]
  have hulen : (unsplitGo false (t.buf.take t.buf_len)).length = t.buf_len := by
    rw [unsplitGo_length, ht, List.length_append, hrlen]
    omega
  refine ⟨?_, rfl, rfl⟩
  unfold tl_unsplit
  simp only
  rw [take_set_of_le _ _ _ _ le_rfl]
  rw [List.take_append_eq_append_take, hulen, Nat.sub_self, List.take_zero,
    List.append_nil, List.take_of_length_le (le_of_eq hulen)]
  rw [ht, unsplitGo_append _ _ hext,
    unsplit_splitGo (s.buf.take s.buf_len) 1 false 0 0 hnul hcg]

theorem getD_drop_zero (l : List Nat) (k : Nat) :
    (l.drop k).getD 0 0 = l.getD k 0 := by
  simp [List.getD_eq_getElem?_getD, List.getElem?_drop]

/-- On split failure (`silent` mode) the returned state is the unsplit of
the transformed buffer. -/
theorem tl_split_fail (s : Tl) (silent : Bool)
    (h : (tl_split s silent).2.2.2.1 = false) :
    (tl_split s silent).1 = tl_unsplit { s with
      buf := (splitGo 1 false 0 0 (s.buf.take s.buf_len)).buf ++
        s.buf.drop s.buf_len } := by
  unfold tl_split
  by_cases hq : (splitGo 1 false 0 0 (s.buf.take s.buf_len)).quoted = true
  · simp only [hq, reduceIte]
  · simp only [Bool.not_eq_true] at hq
    by_cases hnw : (splitGo 1 false 0 0 (s.buf.take s.buf_len)).nw = TL_MAX_WORDS
    · simp only [hq, hnw, reduceIte, Bool.false_eq_true]
    · exfalso
      unfold tl_split at h
      simp only [hq, hnw, reduceIte, Bool.false_eq_true] at h
      exact absurd h (by simp)

/-- On split success the returned state carries the transformed buffer and
the loop's words and count. -/
theorem tl_split_ok (s : Tl) (silent : Bool)
    (h : (tl_split s silent).2.2.2.1 = true) :
    (tl_split s silent).1 = { s with
      buf := (splitGo 1 false 0 0 (s.buf.take s.buf_len)).buf ++
        s.buf.drop s.buf_len } ∧
    (tl_split s silent).2.2.1 = (splitGo 1 false 0 0 (s.buf.take s.buf_len)).nw := by
  unfold tl_split at h ⊢
  by_cases hq : (splitGo 1 false 0 0 (s.buf.take s.buf_len)).quoted = true
  · simp only [hq, reduceIte] at h
    exact absurd h (by simp)
  · simp only [Bool.not_eq_true] at hq
    by_cases hnw : (splitGo 1 false 0 0 (s.buf.take s.buf_len)).nw = TL_MAX_WORDS
    · simp only [hq, hnw, reduceIte, Bool.false_eq_true] at h
    · simp only [hq, hnw, reduceIte, Bool.false_eq_true]
      exact ⟨trivial, trivial⟩

/-- Feeding TAB with the cursor at end-of-line dispatches to `complete`. -/
theorem tl_input_tab (t : Tl) (ht : t.escape_len = 0) (hp : t.buf_len = t.pos) :
    tl_input t 9 = ((complete t).1, (complete t).2, true) := by
  unfold tl_input
  norm_num [ht, hp]


/-- The unique-prefix-match branch of `complete`: the `add_char` loop
appends the matched token's missing suffix plus one space, and the final
`unsplit_line` restores the quotes of the original prefix, so the line
content grows by exactly that suffix and a space. -/
theorem complete_unique_append (s : Tl) (p : Parsed) (K : Nat) (word : List Nat)
    (hpos : s.pos = s.buf_len) (hlen : s.buf.length = TL_MAX_LINE_LEN)
    (hroomS : s.buf_len + 2 ≤ TL_MAX_LINE_LEN)
    (hterm : s.buf.getD s.buf_len 0 = 0)
    (hclean : quoteClean (s.buf.take s.buf_len))
    (hdict : ∀ str ∈ s.token_dict, (0 : Nat) ∉ str ∧
      s.buf_len + str.length + 2 ≤ TL_MAX_LINE_LEN)
    (hcu : completeUnique s = some (K, word.length)) :
    ∃ t w,
      completeUnique s = some (t, w) ∧
      lineContent (tl_unsplit (addChars
        { s with buf := (splitGo 1 false 0 0 (s.buf.take s.buf_len)).buf ++
            s.buf.drop s.buf_len, parsed := p }
        ((tokenstrOf s.token_dict K).drop word.length ++ [32])).1) =
        lineContent s ++ (tokenstrOf s.token_dict t).drop w ++ [32] ∧
      (tl_unsplit (addChars
        { s with buf := (splitGo 1 false 0 0 (s.buf.take s.buf_len)).buf ++
            s.buf.drop s.buf_len, parsed := p }
        ((tokenstrOf s.token_dict K).drop word.length ++ [32])).1).buf_len =
        s.buf_len + ((tokenstrOf s.token_dict t).length - w) + 1 ∧
      (tl_unsplit (addChars
        { s with buf := (splitGo 1 false 0 0 (s.buf.take s.buf_len)).buf ++
            s.buf.drop s.buf_len, parsed := p }
        ((tokenstrOf s.token_dict K).drop word.length ++ [32])).1).pos =
      (tl_unsplit (addChars
        { s with buf := (splitGo 1 false 0 0 (s.buf.take s.buf_len)).buf ++
            s.buf.drop s.buf_len, parsed := p }
        ((tokenstrOf s.token_dict K).drop word.length ++ [32])).1).buf_len := by
  have hbl : s.buf_len < s.buf.length := by rw [hlen]; omega
  have hstr : (0 : Nat) ∉ tokenstrOf s.token_dict K ∧
      s.buf_len + (tokenstrOf s.token_dict K).length + 2 ≤ TL_MAX_LINE_LEN := by
    unfold tokenstrOf
    by_cases hk : K < s.token_dict.length
    · have hmem : s.token_dict.getD K [] ∈ s.token_dict := by
        rw [List.getD_eq_getElem s.token_dict [] hk]
        exact List.getElem_mem hk
      exact hdict _ hmem
    · rw [List.getD_eq_default s.token_dict [] (by omega)]
      exact ⟨by simp, by simpa using hroomS⟩
  have hsufnul : (0 : Nat) ∉ (tokenstrOf s.token_dict K).drop word.length ++ [32] := by
    intro h
    rcases List.mem_append.mp h with h | h
    · exact hstr.1 (List.mem_of_mem_drop h)
    · simp at h
  have hsuflen : ((tokenstrOf s.token_dict K).drop word.length ++ [32]).length =
      ((tokenstrOf s.token_dict K).length - word.length) + 1 := by
    simp
  have hs3len : ((splitGo 1 false 0 0 (s.buf.take s.buf_len)).buf ++
      s.buf.drop s.buf_len).length = s.buf.length := by
    rw [List.length_append, splitGo_length, List.length_take, List.length_drop]
    omega
  have hsplen : ((splitGo 1 false 0 0 (s.buf.take s.buf_len)).buf).length
      = s.buf_len := by
    rw [splitGo_length, List.length_take]
    omega
  have hs3take : ((splitGo 1 false 0 0 (s.buf.take s.buf_len)).buf ++
      s.buf.drop s.buf_len).take s.buf_len =
      (splitGo 1 false 0 0 (s.buf.take s.buf_len)).buf := by
    rw [List.take_append_eq_append_take, hsplen, Nat.sub_self, List.take_zero,
      List.append_nil, List.take_of_length_le (le_of_eq hsplen)]
  have hs3term : ((splitGo 1 false 0 0 (s.buf.take s.buf_len)).buf ++
      s.buf.drop s.buf_len).getD s.buf_len 0 = 0 := by
    rw [List.getD_append_right _ _ 0 s.buf_len (le_of_eq hsplen), hsplen,
      Nat.sub_self, getD_drop_zero]
    exact hterm
  obtain ⟨a1, a2, a3, a4, a5, a6⟩ := addChars_spec
    ((tokenstrOf s.token_dict K).drop word.length ++ [32])
    { s with buf := (splitGo 1 false 0 0 (s.buf.take s.buf_len)).buf ++
        s.buf.drop s.buf_len, parsed := p }
    hpos (by rw [hsuflen]; show s.buf_len + _ + 1 ≤ _; rw [hs3len]; omega)
    hs3term
  obtain ⟨r1, r2, r3⟩ := tl_unsplit_restore_append s _
    ((tokenstrOf s.token_dict K).drop word.length ++ [32]) hbl hclean hsufnul
    (by rw [a1]; rw [a4]; show _ ++ _ = _; rw [hs3take])
    a1
  refine ⟨K, word.length, hcu, ?_, ?_, ?_⟩
  · show (tl_unsplit _).buf.take (tl_unsplit _).buf_len = _
    rw [r2, a1]
    have := r1
    rw [a1] at this
    rw [this]
    show s.buf.take s.buf_len ++ _ = _
    rw [← List.append_assoc]
    rfl
  · rw [r2, a1, hsuflen]
    show s.buf_len + ((tokenstrOf s.token_dict K).length - word.length + 1) =
      s.buf_len + ((tokenstrOf s.token_dict K).length - word.length) + 1
    omega
  · rw [r3, a2, r2, a1]

set_option maxHeartbeats 1600000 in
/-- `complete` either leaves the line buffer, its length and the cursor
unchanged — and this is exactly when the unique-prefix-match branch does
not run (`completeUnique s = none`) — or, in the unique-prefix-match case
(`completeUnique s = some (t, w)` with `t` the matched token and `w` the
current word's length), appends the matched token's missing suffix
followed by one space. -/
theorem complete_restores (s : Tl) (hpos : s.pos = s.buf_len)
    (hlen : s.buf.length = TL_MAX_LINE_LEN)
    (hroomS : s.buf_len + 2 ≤ TL_MAX_LINE_LEN)
    (hterm : s.buf.getD s.buf_len 0 = 0) (hclean : quoteClean (lineContent s))
    (hdict : ∀ str ∈ s.token_dict, (0 : Nat) ∉ str ∧
      s.buf_len + str.length + 2 ≤ TL_MAX_LINE_LEN) :
    (completeUnique s = none ∧ (complete s).1.buf = s.buf ∧
      (complete s).1.buf_len = s.buf_len ∧ (complete s).1.pos = s.pos) ∨
    (∃ t w, completeUnique s = some (t, w) ∧
      lineContent (complete s).1 =
        lineContent s ++ (tokenstrOf s.token_dict t).drop w ++ [32] ∧
      (complete s).1.buf_len =
        s.buf_len + ((tokenstrOf s.token_dict t).length - w) + 1 ∧
      (complete s).1.pos = (complete s).1.buf_len) := by
  have hbl : s.buf_len < s.buf.length := by rw [hlen]; omega
  have hcleanT : quoteClean (s.buf.take s.buf_len) := hclean
  have hfailtl : (tl_split s true).2.2.2.1 = false →
      (tl_split s true).1.buf = s.buf ∧ (tl_split s true).1.buf_len = s.buf_len ∧
      (tl_split s true).1.pos = s.pos := by
    intro hokf
    rw [tl_split_fail s true hokf]
    exact ⟨tl_unsplit_restore s _ hbl hterm hcleanT rfl rfl, rfl, rfl⟩
  have hrest : ∀ p : Parsed,
      (tl_unsplit { s with
        buf := (splitGo 1 false 0 0 (s.buf.take s.buf_len)).buf ++
          s.buf.drop s.buf_len, parsed := p }).buf = s.buf :=
    fun p => tl_unsplit_restore s _ hbl hterm hcleanT rfl rfl
  unfold complete
  by_cases hp0 : s.pos = 0
  · -- Tab on the empty line: only the re-terminating write, a no-op.
    rw [if_pos hp0]
    left
    refine ⟨?_, ?_, rfl, rfl⟩
    · simp only [completeUnique]
      rw [if_pos hp0]
    · show (tl_unsplit s).buf = s.buf
      unfold tl_unsplit
      simp only
      have hbl0 : s.buf_len = 0 := by omega
      rw [hbl0]
      simp only [List.take_zero, List.drop_zero]
      rw [show unsplitGo false [] = [] from rfl, List.nil_append]
      exact set_getD_self s.buf 0 0 (hbl0 ▸ hterm)
  · rw [if_neg hp0]
    by_cases hsp : s.buf.getD (s.pos - 1) 0 ≠ 32
    · rw [if_pos hsp]
      simp only []
      by_cases hokf : (tl_split s true).2.2.2.1 = false
      · rw [if_pos (Or.inl hokf)]
        obtain ⟨hb1, hb2, hb3⟩ := hfailtl hokf
        refine Or.inl ⟨?_, hb1, hb2, hb3⟩
        simp only [completeUnique]
        rw [if_neg hp0, if_pos hsp, if_pos (Or.inl hokf)]
      · have hokt : (tl_split s true).2.2.2.1 = true := by
          revert hokf; cases (tl_split s true).2.2.2.1 <;> simp
        obtain ⟨hs2, hnwEq⟩ := tl_split_ok s true hokt
        by_cases hnw0 : (tl_split s true).2.2.1 = 0
        · rw [if_pos (Or.inr hnw0)]
          left
          refine ⟨?_, ?_, ?_, ?_⟩
          · simp only [completeUnique]
            rw [if_neg hp0, if_pos hsp, if_pos (Or.inr hnw0)]
          · rw [hs2]
            show (splitGo 1 false 0 0 (s.buf.take s.buf_len)).buf ++
              s.buf.drop s.buf_len = s.buf
            rw [splitGo_nw_zero_buf (s.buf.take s.buf_len) false 0
              (hnwEq.symm.trans hnw0), List.take_append_drop]
          · rw [hs2]
          · rw [hs2]
        · rw [if_neg (not_or.mpr ⟨hokf, hnw0⟩)]
          rw [hs2]
          split
          · rename_i htr
            split
            · rename_i toks heq
              split
              · rename_i hscan
                split
                · rename_i hm
                  refine Or.inl ⟨?_, hrest _, rfl, rfl⟩
                  simp only [completeUnique]
                  rw [if_neg hp0, if_pos hsp,
                    if_neg (not_or.mpr ⟨hokf, hnw0⟩), hs2]
                  rw [if_pos htr, heq]
                  simp only []
                  rw [if_pos hscan, if_pos hm]
                · rename_i hm
                  dsimp only
                  refine Or.inr (complete_unique_append s _ _ _ hpos hlen
                    hroomS hterm hcleanT hdict ?_)
                  simp only [completeUnique]
                  rw [if_neg hp0, if_pos hsp,
                    if_neg (not_or.mpr ⟨hokf, hnw0⟩), hs2]
                  rw [if_pos htr, heq]
                  simp only []
                  rw [if_pos hscan, if_neg hm]
              · rename_i hscan
                refine Or.inl ⟨?_, hrest _, rfl, rfl⟩
                simp only [completeUnique]
                rw [if_neg hp0, if_pos hsp,
                  if_neg (not_or.mpr ⟨hokf, hnw0⟩), hs2]
                rw [if_pos htr, heq]
                simp only []
                rw [if_neg hscan]
            · rename_i heq
              refine Or.inl ⟨?_, hrest _, rfl, rfl⟩
              simp only [completeUnique]
              rw [if_neg hp0, if_pos hsp,
                if_neg (not_or.mpr ⟨hokf, hnw0⟩), hs2]
              rw [if_pos htr, heq]
          · rename_i htr
            refine Or.inl ⟨?_, hrest _, rfl, rfl⟩
            simp only [completeUnique]
            rw [if_neg hp0, if_pos hsp,
              if_neg (not_or.mpr ⟨hokf, hnw0⟩), hs2]
            rw [if_neg htr]
    · rw [if_neg hsp]
      have hcuN : completeUnique s = none := by
        simp only [completeUnique]
        rw [if_neg hp0, if_neg hsp]
      simp only []
      by_cases hokf : (tl_split s true).2.2.2.1 = false
      · rw [if_pos (Or.inl hokf)]
        obtain ⟨hb1, hb2, hb3⟩ := hfailtl hokf
        exact Or.inl ⟨hcuN, hb1, hb2, hb3⟩
      · have hokt : (tl_split s true).2.2.2.1 = true := by
          revert hokf; cases (tl_split s true).2.2.2.1 <;> simp
        obtain ⟨hs2, hnwEq⟩ := tl_split_ok s true hokt
        by_cases hnw0 : (tl_split s true).2.2.1 = 0
        · rw [if_pos (Or.inr hnw0)]
          left
          refine ⟨hcuN, ?_, ?_, ?_⟩
          · rw [hs2]
            show (splitGo 1 false 0 0 (s.buf.take s.buf_len)).buf ++
              s.buf.drop s.buf_len = s.buf
            rw [splitGo_nw_zero_buf (s.buf.take s.buf_len) false 0
              (hnwEq.symm.trans hnw0), List.take_append_drop]
          · rw [hs2]
          · rw [hs2]
        · rw [if_neg (not_or.mpr ⟨hokf, hnw0⟩)]
          rw [hs2]
          split
          · split
            · exact Or.inl ⟨hcuN, hrest _, rfl, rfl⟩
            · split
              · exact Or.inl ⟨hcuN, hrest _, rfl, rfl⟩
              · exact Or.inl ⟨hcuN, hrest _, rfl, rfl⟩
          · exact Or.inl ⟨hcuN, hrest _, rfl, rfl⟩

set_option maxRecDepth 8192 in
/-- Counterexample to the literal C10: with the cursor at the end of the
line a"b c (which has a double quote inside an unquoted word), TAB finds
no completion yet rewrites the buffer to a"b"c, because the final
`unsplit_line` restores the word-ending NUL as a quote. -/
theorem C10_cex :
    (tl_run (tl_init [] []) [97, 34, 98, 32, 99]).1.pos =
      (tl_run (tl_init [] []) [97, 34, 98, 32, 99]).1.buf_len ∧
    readCStr (tl_run (tl_init [] []) [97, 34, 98, 32, 99]).1.buf 0 =
      [97, 34, 98, 32, 99] ∧
    readCStr
      (tl_input (tl_run (tl_init [] []) [97, 34, 98, 32, 99]).1 9).1.buf 0 =
      [97, 34, 98, 34, 99] ∧
    [97, 34, 98, 34, 99] ≠ [97, 34, 98, 32, 99] := by decide

/-- A concrete engine state for exercising completion: the line holds
con with the cursor at its end, and the dictionary maps token ID 1 to
configuration. -/
def c10state : Tl :=
  { tl_init [⟨1, 0, [], none⟩] [[], strBytes (r"configuration")] with
    buf := [99, 111, 110] ++ List.replicate 125 0, buf_len := 3, pos := 3 }

/-- C10, amended: with the cursor at end-of-line, on a NUL-free line with
no double quote inside an unquoted word and enough room for any completed
token, TAB leaves `line_buf`, `line_len` and the cursor exactly unchanged
whenever the unique-prefix-match branch of `complete` does not run
(`completeUnique s = none`: the empty-line, zero-match, multiple-match,
argument-placeholder, and all failure cases); when it does run
(`completeUnique s = some (t, w)`, with `t` the matched token and `w` the
current word's length), the only change is that the matched token's
missing suffix followed by one space is appended. -/
theorem C10_complete_frame (s : Tl) (hesc : s.escape_len = 0)
    (hpos : s.pos = s.buf_len) (hlen : s.buf.length = TL_MAX_LINE_LEN)
    (hroomS : s.buf_len + 2 ≤ TL_MAX_LINE_LEN)
    (hterm : s.buf.getD s.buf_len 0 = 0) (hclean : quoteClean (lineContent s))
    (hdict : ∀ str ∈ s.token_dict, (0 : Nat) ∉ str ∧
      s.buf_len + str.length + 2 ≤ TL_MAX_LINE_LEN) :
    (completeUnique s = none →
      (tl_input s 9).1.buf = s.buf ∧ (tl_input s 9).1.buf_len = s.buf_len ∧
      (tl_input s 9).1.pos = s.pos) ∧
    (∀ t w, completeUnique s = some (t, w) →
      lineContent (tl_input s 9).1 =
        lineContent s ++ (tokenstrOf s.token_dict t).drop w ++ [32] ∧
      (tl_input s 9).1.buf_len =
        s.buf_len + ((tokenstrOf s.token_dict t).length - w) + 1 ∧
      (tl_input s 9).1.pos = (tl_input s 9).1.buf_len) := by
  rw [tl_input_tab s hesc hpos.symm]
  rcases complete_restores s hpos hlen hroomS hterm hclean hdict with
    ⟨hcu, h1, h2, h3⟩ | ⟨t, w, hcu, h1, h2, h3⟩
  · refine ⟨fun _ => ⟨h1, h2, h3⟩, fun t w hsome => ?_⟩
    rw [hcu] at hsome
    exact absurd hsome (by simp)
  · refine ⟨fun hnone => ?_, fun t' w' hsome => ?_⟩
    · rw [hcu] at hnone
      exact absurd hnone (by simp)
    · rw [hcu] at hsome
      have hpair := Option.some.inj hsome
      obtain ⟨rfl, rfl⟩ : t = t' ∧ w = w' :=
        ⟨congrArg Prod.fst hpair, congrArg Prod.snd hpair⟩
      exact ⟨h1, h2, h3⟩

set_option maxRecDepth 8192 in
/-- Witness for C10 at the concrete state: all hypotheses hold, the
theorem applies, and its unique-match arm fires at the computed
discriminator value. -/
theorem C10_complete_frame_witness :
    (c10state.escape_len = 0 ∧ c10state.pos = c10state.buf_len ∧
     c10state.buf.length = TL_MAX_LINE_LEN ∧
     c10state.buf_len + 2 ≤ TL_MAX_LINE_LEN ∧
     c10state.buf.getD c10state.buf_len 0 = 0 ∧
     quoteClean (lineContent c10state) ∧
     (∀ str ∈ c10state.token_dict, (0 : Nat) ∉ str ∧
       c10state.buf_len + str.length + 2 ≤ TL_MAX_LINE_LEN)) ∧
    ((completeUnique c10state = none →
      (tl_input c10state 9).1.buf = c10state.buf ∧
      (tl_input c10state 9).1.buf_len = c10state.buf_len ∧
      (tl_input c10state 9).1.pos = c10state.pos) ∧
     (∀ t w, completeUnique c10state = some (t, w) →
      lineContent (tl_input c10state 9).1 =
        lineContent c10state ++ (tokenstrOf c10state.token_dict t).drop w ++
          [32] ∧
      (tl_input c10state 9).1.buf_len =
        c10state.buf_len + ((tokenstrOf c10state.token_dict t).length - w) +
          1 ∧
      (tl_input c10state 9).1.pos = (tl_input c10state 9).1.buf_len)) :=
  ⟨⟨rfl, rfl, by decide, by decide, by decide, by decide, by decide⟩,
   C10_complete_frame c10state rfl rfl (by decide) (by decide) (by decide)
     (by decide) (by decide)⟩

/-! ## History ring model (C8)

`histFold` submits a list of lines to the history (each step is exactly
the `history_add` call `process_line` makes, with `tl->buf` holding the
line); `histWalk` is the repeated previous-entry walk that `history_up`
and `history_show` perform, reading each entry with `set_line`'s
`readCStr`.  `packHist` and `histSize` describe the ring layout the adds
produce: the lines packed back-to-back, each with its NUL terminator. -/

def packHist (lines : List (List Nat)) : List Nat :=
  (lines.map (fun l => l ++ [0])).flatten

def histSize (lines : List (List Nat)) : Nat :=
  (lines.map (fun l => l.length + 1)).sum

def histFold : Tl → List (List Nat) → Tl
  | t, [] => t
  | t, l :: ls => histFold (history_add { t with buf := l ++ [0] }) ls

def histWalk (s : Tl) : Nat → Int → List (List Nat)
  | 0, _ => []
  | fuel + 1, entry =>
    let e := history_previous s entry
    if e = -1 then []
    else readCStr s.hist_buf e.toNat :: histWalk s fuel e

theorem packHist_append (xs ys : List (List Nat)) :
    packHist (xs ++ ys) = packHist xs ++ packHist ys := by
  simp [packHist]

theorem packHist_length (xs : List (List Nat)) :
    (packHist xs).length = histSize xs := by
  induction xs with
  | nil => rfl
  | cons l ls ih => simp [packHist, histSize] at ih ⊢; omega

theorem histSize_append (xs ys : List (List Nat)) :
    histSize (xs ++ ys) = histSize xs + histSize ys := by
  simp [histSize]

theorem length_le_histSize (xs : List (List Nat)) :
    xs.length ≤ histSize xs := by
  induction xs with
  | nil => exact le_rfl
  | cons l ls ih => simp [histSize] at ih ⊢; omega

theorem takeWhile_append_zero (l r : List Nat) (h : 0 ∉ l) :
    (l ++ 0 :: r).takeWhile (fun b => b ≠ 0) = l := by
  induction l with
  | nil => simp [List.takeWhile]
  | cons b bs ih =>
    have hb : b ≠ 0 := fun hb => h (hb ▸ List.mem_cons_self b bs)
    have hbs : 0 ∉ bs := fun hm => h (List.mem_cons_of_mem b hm)
    simp [List.takeWhile, hb]
    simpa using ih hbs

theorem readCStr_append_zero (l r : List Nat) (h : (0 : Nat) ∉ l) :
    readCStr (l ++ 0 :: r) 0 = l := by
  unfold readCStr
  rw [List.drop_zero]
  exact takeWhile_append_zero l r h

theorem decWrapI_coe_pos (n : Nat) (h : 1 ≤ n) : decWrapI (n : Int) = n - 1 := by
  unfold decWrapI
  rw [if_neg (by omega)]
  omega

theorem decWrapI_coe_zero : decWrapI ((0 : Nat) : Int) = TL_MAX_HISTORY_SIZE - 1 := by
  unfold decWrapI
  rw [if_pos (by omega)]

/-- `memcpy` into the zero tail of the ring keeps the packed prefix. -/
theorem writeBytes_layout (P str : List Nat) (z : Nat) (hs : str.length ≤ z) :
    writeBytes (P ++ List.replicate z 0) P.length str =
      P ++ str ++ List.replicate (z - str.length) 0 := by
  unfold writeBytes
  rw [List.take_left]
  rw [show P.length + str.length = P.length + str.length from rfl]
  rw [List.drop_append_eq_append_drop]
  rw [show P.length + str.length - P.length = str.length from by omega]
  rw [List.drop_of_length_le (by omega), List.nil_append, List.drop_replicate]
  rw [List.take_of_length_le]
  simp
  omega

theorem histSize_pos (xs : List (List Nat)) (h : xs ≠ []) : 0 < histSize xs := by
  cases xs with
  | nil => exact absurd rfl h
  | cons l ls => simp [histSize]

set_option maxRecDepth 4096 in
/-- One `history_add` under the contiguous layout: the line is appended at
`hist_end`, which advances by the entry size; no eviction happens while
the total stays strictly below the ring capacity. -/
theorem history_add_layout (s : Tl) (done : List (List Nat)) (l : List Nat)
    (hb : s.hist_begin = 0) (he : s.hist_end = histSize done)
    (hbuf : s.hist_buf = packHist done ++
      List.replicate (TL_MAX_HISTORY_SIZE - histSize done) 0)
    (hlnul : (0 : Nat) ∉ l) (hbufl : s.buf = l ++ [0])
    (hroom : histSize done + (l.length + 1) < TL_MAX_HISTORY_SIZE) :
    (history_add s).hist_begin = 0 ∧
    (history_add s).hist_end = histSize done + (l.length + 1) ∧
    (history_add s).hist_buf = packHist (done ++ [l]) ++
      List.replicate (TL_MAX_HISTORY_SIZE - (histSize done + (l.length + 1))) 0 := by
  have hreads : readCStr s.buf 0 = l := by
    rw [hbufl]
    exact readCStr_append_zero l [] hlnul
  have hpk : packHist (done ++ [l]) = packHist done ++ (l ++ [0]) := by
    rw [packHist_append]
    simp [packHist]
  have hM : TL_MAX_HISTORY_SIZE = 1024 := rfl
  simp only [history_add, hreads, hb, he, hbuf]
  have hlen0 : (l ++ [0]).length = l.length + 1 := by simp
  by_cases hd : done = []
  · subst hd
    have hz : histSize ([] : List (List Nat)) = 0 := rfl
    simp only [hz, packHist, List.map_nil, List.flatten_nil, List.nil_append,
      Nat.sub_zero]
    rw [if_true]
    have hw0 : writeBytes (List.replicate TL_MAX_HISTORY_SIZE 0) 0 (l ++ [0]) =
        (l ++ [0]) ++ List.replicate (TL_MAX_HISTORY_SIZE - (l ++ [0]).length) 0 := by
      have h := writeBytes_layout [] (l ++ [0]) TL_MAX_HISTORY_SIZE
        (by simp only [hlen0, hM]; omega)
      simpa using h
    rw [hw0]
    have hc1 : ¬TL_MAX_HISTORY_SIZE ≤ 0 + (l ++ [0]).length := by
      simp only [hlen0]; omega
    have hc2 : ¬(0 = 0 + (l ++ [0]).length) := by
      simp only [hlen0]; omega
    simp only [hc1, hc2, reduceIte]
    refine ⟨trivial, by simp only [hlen0], ?_⟩
    simp only [List.map_cons, List.map_nil, List.flatten_cons, List.flatten_nil,
      List.append_nil, hlen0, Nat.zero_add]
  · have hdpos : 0 < histSize done := histSize_pos done hd
    rw [if_neg (show ¬(0 = histSize done) from by omega)]
    rw [if_pos hdpos]
    have hfits : (l ++ [0]).length ≤ TL_MAX_HISTORY_SIZE - histSize done := by
      simp only [hlen0]; omega
    simp only [hfits, reduceIte]
    have hw : writeBytes (packHist done ++
        List.replicate (TL_MAX_HISTORY_SIZE - histSize done) 0) (histSize done)
        (l ++ [0]) = packHist done ++ (l ++ [0]) ++
        List.replicate (TL_MAX_HISTORY_SIZE - histSize done - (l ++ [0]).length) 0 := by
      have h := writeBytes_layout (packHist done) (l ++ [0])
        (TL_MAX_HISTORY_SIZE - histSize done) (by simp only [hlen0]; omega)
      rw [packHist_length] at h
      exact h
    rw [hw]
    have hnw : ¬TL_MAX_HISTORY_SIZE ≤ histSize done + (l ++ [0]).length := by
      simp only [hlen0]; omega
    have hne0 : ¬(0 = histSize done + (l ++ [0]).length) := by
      simp only [hlen0]; omega
    simp only [hnw, hne0, reduceIte]
    refine ⟨trivial, by simp only [hlen0], ?_⟩
    show packHist done ++ (l ++ [0]) ++
        List.replicate (TL_MAX_HISTORY_SIZE - histSize done - (l ++ [0]).length) 0 =
      packHist (done ++ [l]) ++
        List.replicate (TL_MAX_HISTORY_SIZE - (histSize done + (l.length + 1))) 0
    rw [hpk, hlen0]
    rw [show TL_MAX_HISTORY_SIZE - histSize done - (l.length + 1) =
      TL_MAX_HISTORY_SIZE - (histSize done + (l.length + 1)) from by omega]

theorem histSize_cons (l : List Nat) (ls : List (List Nat)) :
    histSize (l :: ls) = (l.length + 1) + histSize ls := by
  simp [histSize]

theorem histSize_single (l : List Nat) : histSize [l] = l.length + 1 := by
  simp [histSize]

/-- Folding `history_add` over successive lines lays the entries out
back-to-back from offset 0, with `hist_begin` pinned at 0 and `hist_end`
at the total size, as long as the total stays strictly below capacity. -/
theorem histFold_layout :
    ∀ (rest done : List (List Nat)) (s : Tl),
    s.hist_begin = 0 → s.hist_end = histSize done →
    s.hist_buf = packHist done ++
      List.replicate (TL_MAX_HISTORY_SIZE - histSize done) 0 →
    (∀ l ∈ rest, (0 : Nat) ∉ l) →
    histSize done + histSize rest < TL_MAX_HISTORY_SIZE →
    (histFold s rest).hist_begin = 0 ∧
    (histFold s rest).hist_end = histSize (done ++ rest) ∧
    (histFold s rest).hist_buf = packHist (done ++ rest) ++
      List.replicate (TL_MAX_HISTORY_SIZE - histSize (done ++ rest)) 0 := by
  intro rest
  induction rest with
  | nil =>
    intro done s hb he hbuf _ _
    exact ⟨hb, by simpa using he, by simpa using hbuf⟩
  | cons l ls ih =>
    intro done s hb he hbuf hnul htot
    have hszc := histSize_cons l ls
    obtain ⟨a1, a2, a3⟩ := history_add_layout { s with buf := l ++ [0] } done l
      hb he hbuf (hnul l (List.mem_cons_self l ls)) rfl (by omega)
    have hone : histSize (done ++ [l]) = histSize done + (l.length + 1) := by
      rw [histSize_append, histSize_single]
    have hres := ih (done ++ [l]) (history_add { s with buf := l ++ [0] }) a1
      (by rw [a2, hone])
      (by rw [a3, hone])
      (fun t ht => hnul t (List.mem_cons_of_mem l ht))
      (by rw [hone]; omega)
    show (histFold (history_add { s with buf := l ++ [0] }) ls).hist_begin = 0 ∧ _ ∧ _
    rw [show done ++ l :: ls = (done ++ [l]) ++ ls from by simp]
    exact hres

/-- The backward scan of `history_previous` stops at the start of a
nonzero block whose predecessor byte (with wrap) is zero. -/
theorem hprevLoop_run (hbuf : List Nat) :
    ∀ (fuel p a : Nat), a ≤ p + 1 → p + 1 - a < fuel →
    (∀ j, a ≤ j → j ≤ p → hbuf.getD j 0 ≠ 0) →
    hbuf.getD (decWrapI (a : Int)) 0 = 0 →
    hprevLoop hbuf fuel p (p + 1) = a := by
  have hstep : ∀ (f e pr : Nat), hprevLoop hbuf (f + 1) e pr =
      if hbuf.getD e 0 ≠ 0 then hprevLoop hbuf f (decWrapI (e : Int)) e
      else pr := fun _ _ _ => rfl
  intro fuel
  induction fuel with
  | zero => intro p a h1 h2 _ _; omega
  | succ f ih =>
    intro p a h1 h2 hblk hz
    by_cases hap : a = p + 1
    · have hdw : decWrapI (a : Int) = p := by
        subst hap
        rw [decWrapI_coe_pos (p + 1) (by omega)]
        omega
      rw [hdw] at hz
      rw [hstep]
      rw [if_neg (by simpa using hz)]
      omega
    · have hale : a ≤ p := by omega
      have hpne : hbuf.getD p 0 ≠ 0 := hblk p hale le_rfl
      rw [hstep]
      rw [if_pos hpne]
      by_cases hp0 : p = 0
      · subst hp0
        have ha0 : a = 0 := by omega
        subst ha0
        rw [decWrapI_coe_zero] at hz ⊢
        cases f with
        | zero => omega
        | succ f2 =>
          rw [hstep]
          rw [if_neg (by simpa using hz)]
      · rw [decWrapI_coe_pos p (by omega)]
        have hr := ih (p - 1) a (by omega) (by omega)
          (fun j hj1 hj2 => hblk j hj1 (by omega)) hz
        rw [show p - 1 + 1 = p from by omega] at hr
        exact hr

theorem histSize_take_succ (all : List (List Nat)) (k : Nat)
    (hk : k < all.length) :
    histSize (all.take (k + 1)) =
      histSize (all.take k) + ((all.getD k []).length + 1) := by
  rw [List.take_succ]
  rw [List.getElem?_eq_getElem hk]
  rw [histSize_append]
  rw [List.getD_eq_getElem all [] hk]
  simp [histSize]

theorem histSize_take_le (all : List (List Nat)) (k : Nat) :
    histSize (all.take k) ≤ histSize all := by
  conv_rhs => rw [← List.take_append_drop k all]
  rw [histSize_append]
  omega

theorem packHist_cons (l : List Nat) (ls : List (List Nat)) :
    packHist (l :: ls) = (l ++ [0]) ++ packHist ls := by
  simp [packHist]

theorem packHist_decomp (all : List (List Nat)) (k : Nat) (hk : k < all.length) :
    packHist all = packHist (all.take k) ++
      ((all.getD k [] ++ [0]) ++ packHist (all.drop (k + 1))) := by
  conv_lhs => rw [← List.take_append_drop k all]
  rw [packHist_append]
  congr 1
  rw [List.drop_eq_getElem_cons hk, packHist_cons]
  rw [List.getD_eq_getElem all [] hk]

theorem getD_replicate_zero (n i : Nat) :
    (List.replicate n (0 : Nat)).getD i 0 = 0 := by
  rcases lt_or_le i n with h | h
  · rw [List.getD_eq_getElem _ _ (by simpa using h)]
    simp
  · rw [List.getD_eq_default]
    simpa using h

/-- Any byte at or past the packed region of the layout is zero. -/
theorem layout_tail_zero (all : List (List Nat)) (z i : Nat)
    (hi : histSize all ≤ i) :
    (packHist all ++ List.replicate z 0).getD i 0 = 0 := by
  rw [List.getD_append_right _ _ 0 i (by rw [packHist_length]; omega)]
  exact getD_replicate_zero z _

/-- Byte `j` of entry `k` in the layout (`j = length` reads the NUL). -/
theorem layout_getD (all : List (List Nat)) (z k j : Nat)
    (hk : k < all.length) (hj : j ≤ (all.getD k []).length) :
    (packHist all ++ List.replicate z 0).getD (histSize (all.take k) + j) 0 =
      (all.getD k [] ++ [0]).getD j 0 := by
  rw [packHist_decomp all k hk, List.append_assoc]
  rw [List.getD_append_right _ _ 0 _ (by rw [packHist_length]; omega)]
  rw [show histSize (all.take k) + j - (packHist (all.take k)).length = j from by
    rw [packHist_length]; omega]
  rw [List.getD_append _ _ 0 j (by
    rw [List.length_append, List.length_append, List.length_singleton]; omega)]
  rw [List.getD_append _ _ 0 j (by
    rw [List.length_append, List.length_singleton]; omega)]

theorem getD_mem (w : List Nat) (i : Nat) (hi : i < w.length) :
    w.getD i 0 ∈ w := by
  rw [List.getD_eq_getElem _ _ hi]
  exact List.getElem_mem hi

/-- Under the contiguous layout, `history_previous` at the boundary after
entry `k` returns the offset of entry `k`'s first byte. -/
theorem history_previous_layout (s : Tl) (all : List (List Nat)) (k : Nat)
    (hb : s.hist_begin = 0)
    (hbuf : s.hist_buf = packHist all ++
      List.replicate (TL_MAX_HISTORY_SIZE - histSize all) 0)
    (hnul : ∀ l ∈ all, l ≠ [] ∧ (0 : Nat) ∉ l)
    (htot : histSize all < TL_MAX_HISTORY_SIZE)
    (hk : k < all.length) :
    history_previous s (histSize (all.take (k + 1)) : Int) =
      (histSize (all.take k) : Int) := by
  have hkmem : all.getD k [] ∈ all := by
    rw [List.getD_eq_getElem all [] hk]
    exact List.getElem_mem hk
  have hlen1 : 1 ≤ (all.getD k []).length :=
    List.length_pos.mpr (hnul _ hkmem).1
  have hsucc := histSize_take_succ all k hk
  have hlelt : histSize (all.take (k + 1)) ≤ histSize all := histSize_take_le all _
  have hM : TL_MAX_HISTORY_SIZE = 1024 := rfl
  unfold history_previous
  rw [hb]
  rw [if_neg (by push_cast; omega)]
  simp only []
  rw [decWrapI_coe_pos (histSize (all.take (k + 1))) (by omega)]
  rw [show histSize (all.take (k + 1)) - 1 =
    (histSize (all.take k) + (all.getD k []).length - 1) + 1 from by omega]
  rw [decWrapI_coe_pos _ (by omega)]
  rw [show histSize (all.take k) + (all.getD k []).length - 1 + 1 - 1 =
    histSize (all.take k) + (all.getD k []).length - 1 from by omega]
  rw [hbuf]
  rw [hprevLoop_run _ (TL_MAX_HISTORY_SIZE + 1)
    (histSize (all.take k) + (all.getD k []).length - 1) (histSize (all.take k))
    (by omega) (by omega)
    (by
      intro j hj1 hj2
      rw [show j = histSize (all.take k) + (j - histSize (all.take k)) from by
        omega]
      rw [layout_getD all _ k _ hk (by omega)]
      rw [List.getD_append _ _ 0 _ (by omega)]
      have hjmem : (all.getD k []).getD (j - histSize (all.take k)) 0 ∈
          all.getD k [] := getD_mem _ _ (by omega)
      exact fun h0 => (hnul _ hkmem).2 (h0 ▸ hjmem))
    (by
      rcases Nat.eq_zero_or_pos k with hk0 | hkpos
      · subst hk0
        have hz0 : histSize (all.take 0) = 0 := rfl
        rw [hz0]
        rw [decWrapI_coe_zero]
        exact layout_tail_zero all _ _ (by omega)
      · have hk1 : k - 1 < all.length := by omega
        have hpos : 0 < histSize (all.take k) := by
          have := histSize_take_succ all (k - 1) hk1
          rw [show k - 1 + 1 = k from by omega] at this
          omega
        rw [decWrapI_coe_pos _ hpos]
        have := histSize_take_succ all (k - 1) hk1
        rw [show k - 1 + 1 = k from by omega] at this
        rw [show histSize (all.take k) - 1 =
          histSize (all.take (k - 1)) + (all.getD (k - 1) []).length from by
          omega]
        rw [layout_getD all _ (k - 1) _ hk1 le_rfl]
        rw [List.getD_append_right _ _ 0 _ le_rfl]
        simp)]

/-- Reading entry `k` of the layout with `set_line`'s C-string read yields
the stored line. -/
theorem readCStr_layout (all : List (List Nat)) (z k : Nat)
    (hk : k < all.length) (hnulk : (0 : Nat) ∉ all.getD k []) :
    readCStr (packHist all ++ List.replicate z 0)
      (histSize (all.take k)) = all.getD k [] := by
  unfold readCStr
  rw [packHist_decomp all k hk, List.append_assoc]
  rw [show histSize (all.take k) = (packHist (all.take k)).length from
    (packHist_length _).symm]
  rw [List.drop_left]
  rw [List.append_assoc, List.append_assoc, List.singleton_append]
  exact takeWhile_append_zero _ _ hnulk

/-- Walking backward from the boundary after entry `k` yields the first
`k` entries, newest first. -/
theorem histWalk_take (s : Tl) (all : List (List Nat))
    (hb : s.hist_begin = 0)
    (hbuf : s.hist_buf = packHist all ++
      List.replicate (TL_MAX_HISTORY_SIZE - histSize all) 0)
    (hnul : ∀ l ∈ all, l ≠ [] ∧ (0 : Nat) ∉ l)
    (htot : histSize all < TL_MAX_HISTORY_SIZE) :
    ∀ (k fuel : Nat), k ≤ all.length → k < fuel →
    histWalk s fuel (histSize (all.take k) : Int) = (all.take k).reverse := by
  intro k
  induction k with
  | zero =>
    intro fuel _ hfuel
    cases fuel with
    | zero => omega
    | succ f =>
      show (if history_previous s (histSize (all.take 0) : Int) = -1 then []
        else _) = _
      rw [if_pos (by
        show history_previous s ((histSize (all.take 0) : Nat) : Int) = -1
        unfold history_previous
        rw [if_pos (by rw [hb]; rfl)])]
      rfl
  | succ k ih =>
    intro fuel hk hfuel
    cases fuel with
    | zero => omega
    | succ f =>
      have hklt : k < all.length := hk
      have hprev := history_previous_layout s all k hb hbuf hnul htot hklt
      show (if history_previous s (histSize (all.take (k + 1)) : Int) = -1
        then [] else readCStr s.hist_buf
          (history_previous s (histSize (all.take (k + 1)) : Int)).toNat ::
          histWalk s f (history_previous s (histSize (all.take (k + 1)) : Int)))
        = _
      rw [hprev]
      rw [if_neg (by omega)]
      rw [show ((histSize (all.take k) : Int)).toNat = histSize (all.take k)
        from rfl]
      rw [hbuf, readCStr_layout all _ k hklt (hnul _ (by
        rw [List.getD_eq_getElem all [] hklt]
        exact List.getElem_mem hklt)).2]
      rw [ih f (by omega) (by omega)]
      rw [List.getD_eq_getElem all [] hklt]
      rw [List.take_succ, List.getElem?_eq_getElem hklt]
      rw [List.reverse_append]
      rfl

theorem getD_shift (A R : List Nat) (i : Nat) :
    (A ++ R).getD (A.length + i) 0 = R.getD i 0 := by
  rw [List.getD_append_right _ _ 0 _ (by omega)]
  rw [show A.length + i - A.length = i from by omega]

theorem drop_shift (A R : List Nat) (i : Nat) :
    (A ++ R).drop (A.length + i) = R.drop i := by
  rw [show (A ++ R).drop (A.length + i) = ((A ++ R).drop A.length).drop i from by
    rw [List.drop_drop]]
  rw [List.drop_left]

theorem readCStr_shift (A R : List Nat) (i : Nat) :
    readCStr (A ++ R) (A.length + i) = readCStr R i := by
  unfold readCStr
  rw [drop_shift]

/-- Byte `j` of entry `k` in a layout shifted by `b` leading zeros. -/
theorem layout_off_getD (all : List (List Nat)) (z b k j : Nat)
    (hk : k < all.length) (hj : j ≤ (all.getD k []).length) :
    (List.replicate b 0 ++ (packHist all ++ List.replicate z 0)).getD
      (b + (histSize (all.take k) + j)) 0 = (all.getD k [] ++ [0]).getD j 0 := by
  rw [show b + (histSize (all.take k) + j) =
    (List.replicate b (0 : Nat)).length + (histSize (all.take k) + j) from by
    simp]
  rw [getD_shift]
  exact layout_getD all z k j hk hj

theorem layout_off_prefix_zero (b i : Nat) (hi : i < b) (R : List Nat) :
    (List.replicate b (0 : Nat) ++ R).getD i 0 = 0 := by
  rw [List.getD_append _ _ 0 i (by simpa using hi)]
  exact getD_replicate_zero b i

/-- `history_previous` on a layout shifted by `b` leading zeros, with
`hist_begin = b`. -/
theorem history_previous_layout_off (s : Tl) (all : List (List Nat))
    (b z k : Nat) (hb : s.hist_begin = b) (hb1 : 1 ≤ b)
    (hbuf : s.hist_buf = List.replicate b 0 ++
      (packHist all ++ List.replicate z 0))
    (hnul : ∀ l ∈ all, l ≠ [] ∧ (0 : Nat) ∉ l)
    (hsz : histSize all ≤ TL_MAX_HISTORY_SIZE)
    (hk : k < all.length) :
    history_previous s ((b + histSize (all.take (k + 1)) : Nat) : Int) =
      ((b + histSize (all.take k) : Nat) : Int) := by
  have hkmem : all.getD k [] ∈ all := by
    rw [List.getD_eq_getElem all [] hk]
    exact List.getElem_mem hk
  have hlen1 : 1 ≤ (all.getD k []).length :=
    List.length_pos.mpr (hnul _ hkmem).1
  have hsucc := histSize_take_succ all k hk
  have hlelt : histSize (all.take (k + 1)) ≤ histSize all := histSize_take_le all _
  have hM : TL_MAX_HISTORY_SIZE = 1024 := rfl
  unfold history_previous
  rw [hb]
  rw [if_neg (by push_cast; omega)]
  simp only []
  rw [decWrapI_coe_pos (b + histSize (all.take (k + 1))) (by omega)]
  rw [show b + histSize (all.take (k + 1)) - 1 =
    (b + histSize (all.take k) + (all.getD k []).length - 1) + 1 from by omega]
  rw [decWrapI_coe_pos _ (by omega)]
  rw [show b + histSize (all.take k) + (all.getD k []).length - 1 + 1 - 1 =
    b + histSize (all.take k) + (all.getD k []).length - 1 from by omega]
  rw [hbuf]
  rw [hprevLoop_run _ (TL_MAX_HISTORY_SIZE + 1)
    (b + histSize (all.take k) + (all.getD k []).length - 1)
    (b + histSize (all.take k))
    (by omega) (by omega)
    (by
      intro j hj1 hj2
      rw [show j = b + (histSize (all.take k) + (j - (b + histSize (all.take k))))
        from by omega]
      rw [layout_off_getD all z b k _ hk (by omega)]
      rw [List.getD_append _ _ 0 _ (by omega)]
      have hjmem : (all.getD k []).getD (j - (b + histSize (all.take k))) 0 ∈
          all.getD k [] := getD_mem _ _ (by omega)
      exact fun h0 => (hnul _ hkmem).2 (h0 ▸ hjmem))
    (by
      rw [decWrapI_coe_pos _ (by omega)]
      rcases Nat.eq_zero_or_pos k with hk0 | hkpos
      · subst hk0
        have hz0 : histSize (all.take 0) = 0 := rfl
        rw [hz0]
        exact layout_off_prefix_zero b _ (by omega) _
      · have hk1 : k - 1 < all.length := by omega
        have hs1 := histSize_take_succ all (k - 1) hk1
        rw [show k - 1 + 1 = k from by omega] at hs1
        rw [show b + histSize (all.take k) - 1 =
          b + (histSize (all.take (k - 1)) + (all.getD (k - 1) []).length)
          from by omega]
        rw [layout_off_getD all z b (k - 1) _ hk1 le_rfl]
        rw [List.getD_append_right _ _ 0 _ le_rfl]
        simp)]

/-- `history_previous` from offset 0 when the ring is exactly full wraps
onto the last entry. -/
theorem history_previous_layout_off_zero (s : Tl) (all : List (List Nat))
    (b : Nat) (hb : s.hist_begin = b) (hb1 : 1 ≤ b)
    (hbuf : s.hist_buf = List.replicate b 0 ++ packHist all)
    (hnul : ∀ l ∈ all, l ≠ [] ∧ (0 : Nat) ∉ l)
    (hfill : b + histSize all = TL_MAX_HISTORY_SIZE)
    (hall : all ≠ []) :
    history_previous s ((0 : Nat) : Int) =
      ((b + histSize (all.take (all.length - 1)) : Nat) : Int) := by
  have hbuf0 : s.hist_buf = List.replicate b 0 ++
      (packHist all ++ List.replicate 0 0) := by simpa using hbuf
  have hN : 0 < all.length := List.length_pos.mpr hall
  have hk1 : all.length - 1 < all.length := by omega
  have hkmem : all.getD (all.length - 1) [] ∈ all := by
    rw [List.getD_eq_getElem all [] hk1]
    exact List.getElem_mem hk1
  have hlen1 : 1 ≤ (all.getD (all.length - 1) []).length :=
    List.length_pos.mpr (hnul _ hkmem).1
  have hs1 := histSize_take_succ all (all.length - 1) hk1
  rw [show all.length - 1 + 1 = all.length from by omega, List.take_length] at hs1
  have hlelt : histSize (all.take (all.length - 1)) ≤ histSize all :=
    histSize_take_le all _
  have hM : TL_MAX_HISTORY_SIZE = 1024 := rfl
  unfold history_previous
  rw [hb]
  rw [if_neg (by push_cast; omega)]
  simp only []
  rw [decWrapI_coe_zero]
  rw [show TL_MAX_HISTORY_SIZE - 1 =
    (b + histSize (all.take (all.length - 1)) +
      (all.getD (all.length - 1) []).length - 1) + 1 from by omega]
  rw [decWrapI_coe_pos _ (by omega)]
  rw [show b + histSize (all.take (all.length - 1)) +
      (all.getD (all.length - 1) []).length - 1 + 1 - 1 =
    b + histSize (all.take (all.length - 1)) +
      (all.getD (all.length - 1) []).length - 1 from by omega]
  rw [hbuf0]
  rw [hprevLoop_run _ (TL_MAX_HISTORY_SIZE + 1)
    (b + histSize (all.take (all.length - 1)) +
      (all.getD (all.length - 1) []).length - 1)
    (b + histSize (all.take (all.length - 1)))
    (by omega) (by omega)
    (by
      intro j hj1 hj2
      rw [show j = b + (histSize (all.take (all.length - 1)) +
        (j - (b + histSize (all.take (all.length - 1))))) from by omega]
      rw [layout_off_getD all 0 b (all.length - 1) _ hk1 (by omega)]
      rw [List.getD_append _ _ 0 _ (by omega)]
      have hjmem : (all.getD (all.length - 1) []).getD
          (j - (b + histSize (all.take (all.length - 1)))) 0 ∈
          all.getD (all.length - 1) [] := getD_mem _ _ (by omega)
      exact fun h0 => (hnul _ hkmem).2 (h0 ▸ hjmem))
    (by
      rw [decWrapI_coe_pos _ (by omega)]
      rcases Nat.eq_zero_or_pos (all.length - 1) with hk0 | hkpos
      · rw [hk0]
        have hz0 : histSize (all.take 0) = 0 := rfl
        rw [hz0]
        exact layout_off_prefix_zero b _ (by omega) _
      · have hk2 : all.length - 1 - 1 < all.length := by omega
        have hs2 := histSize_take_succ all (all.length - 1 - 1) hk2
        rw [show all.length - 1 - 1 + 1 = all.length - 1 from by omega] at hs2
        rw [show b + histSize (all.take (all.length - 1)) - 1 =
          b + (histSize (all.take (all.length - 1 - 1)) +
            (all.getD (all.length - 1 - 1) []).length) from by omega]
        rw [layout_off_getD all 0 b (all.length - 1 - 1) _ hk2 le_rfl]
        rw [List.getD_append_right _ _ 0 _ le_rfl]
        simp)]

theorem readCStr_layout_off (all : List (List Nat)) (z b k : Nat)
    (hk : k < all.length) (hnulk : (0 : Nat) ∉ all.getD k []) :
    readCStr (List.replicate b 0 ++ (packHist all ++ List.replicate z 0))
      (b + histSize (all.take k)) = all.getD k [] := by
  rw [show b + histSize (all.take k) =
    (List.replicate b (0 : Nat)).length + histSize (all.take k) from by simp]
  rw [readCStr_shift]
  exact readCStr_layout all z k hk hnulk

/-- The shifted-layout version of the backward walk. -/
theorem histWalk_off_take (s : Tl) (all : List (List Nat)) (b z : Nat)
    (hb : s.hist_begin = b) (hb1 : 1 ≤ b)
    (hbuf : s.hist_buf = List.replicate b 0 ++
      (packHist all ++ List.replicate z 0))
    (hnul : ∀ l ∈ all, l ≠ [] ∧ (0 : Nat) ∉ l)
    (hsz : histSize all ≤ TL_MAX_HISTORY_SIZE) :
    ∀ (k fuel : Nat), k ≤ all.length → k < fuel →
    histWalk s fuel ((b + histSize (all.take k) : Nat) : Int) =
      (all.take k).reverse := by
  intro k
  induction k with
  | zero =>
    intro fuel _ hfuel
    cases fuel with
    | zero => omega
    | succ f =>
      show (if history_previous s ((b + histSize (all.take 0) : Nat) : Int) = -1
        then [] else _) = _
      rw [if_pos (by
        show history_previous s ((b + histSize (all.take 0) : Nat) : Int) = -1
        unfold history_previous
        rw [if_pos (by
          rw [hb]
          rw [show histSize (all.take 0) = 0 from rfl]
          norm_num)])]
      rfl
  | succ k ih =>
    intro fuel hk hfuel
    cases fuel with
    | zero => omega
    | succ f =>
      have hklt : k < all.length := hk
      have hprev := history_previous_layout_off s all b z k hb hb1 hbuf hnul
        hsz hklt
      show (if history_previous s ((b + histSize (all.take (k + 1)) : Nat) : Int)
          = -1 then [] else readCStr s.hist_buf
          (history_previous s
            ((b + histSize (all.take (k + 1)) : Nat) : Int)).toNat ::
          histWalk s f
            (history_previous s ((b + histSize (all.take (k + 1)) : Nat) : Int)))
        = _
      rw [hprev]
      rw [if_neg (by omega)]
      rw [show ((b + histSize (all.take k) : Nat) : Int).toNat =
        b + histSize (all.take k) from rfl]
      rw [hbuf, readCStr_layout_off all z b k hklt (hnul _ (by
        rw [List.getD_eq_getElem all [] hklt]
        exact List.getElem_mem hklt)).2]
      rw [ih f (by omega) (by omega)]
      rw [List.getD_eq_getElem all [] hklt]
      rw [List.take_succ, List.getElem?_eq_getElem hklt]
      rw [List.reverse_append]
      rfl

/-- Walking from `hist_end = 0` on an exactly-full shifted layout yields
every stored entry, newest first. -/
theorem histWalk_off_full (s : Tl) (all : List (List Nat)) (b : Nat)
    (hb : s.hist_begin = b) (hb1 : 1 ≤ b)
    (hbuf : s.hist_buf = List.replicate b 0 ++ packHist all)
    (hnul : ∀ l ∈ all, l ≠ [] ∧ (0 : Nat) ∉ l)
    (hfill : b + histSize all = TL_MAX_HISTORY_SIZE)
    (hall : all ≠ []) (fuel : Nat) (hfuel : all.length < fuel) :
    histWalk s fuel ((0 : Nat) : Int) = all.reverse := by
  have hbuf0 : s.hist_buf = List.replicate b 0 ++
      (packHist all ++ List.replicate 0 0) := by simpa using hbuf
  have hN : 0 < all.length := List.length_pos.mpr hall
  have hk1 : all.length - 1 < all.length := by omega
  cases fuel with
  | zero => omega
  | succ f =>
    have hprev := history_previous_layout_off_zero s all b hb hb1 hbuf hnul
      hfill hall
    show (if history_previous s ((0 : Nat) : Int) = -1 then []
      else readCStr s.hist_buf
        (history_previous s ((0 : Nat) : Int)).toNat ::
        histWalk s f (history_previous s ((0 : Nat) : Int))) = _
    rw [hprev]
    rw [if_neg (by omega)]
    rw [show ((b + histSize (all.take (all.length - 1)) : Nat) : Int).toNat =
      b + histSize (all.take (all.length - 1)) from rfl]
    rw [hbuf0, readCStr_layout_off all 0 b (all.length - 1) hk1 (hnul _ (by
      rw [List.getD_eq_getElem all [] hk1]
      exact List.getElem_mem hk1)).2]
    rw [histWalk_off_take s all b 0 hb hb1 hbuf0 hnul (by omega)
      (all.length - 1) f (by omega) (by omega)]
    rw [List.getD_eq_getElem all [] hk1]
    have hNsucc : all.length - 1 + 1 = all.length := by omega
    have htk := List.take_succ (l := all) (n := all.length - 1)
    rw [hNsucc, List.take_length, List.getElem?_eq_getElem hk1] at htk
    conv_rhs => rw [htk]
    rw [List.reverse_append]
    rfl

/-- Eight 127-byte lines: 8 × 128 = 1024 bytes with terminators, exactly
the ring capacity. -/
def c8line (i : Nat) : List Nat := List.replicate 127 (97 + i)

def c8lines : List (List Nat) := (List.range 8).map c8line

def c8s : Tl := histFold (tl_init [] []) c8lines

/-- Nine 119-byte lines: 9 x 120 = 1080 bytes with terminators, past the
ring capacity; the ninth entry is stored wrapped (64 bytes at the end of
the ring, 56 at the start). -/
def c8bline (i : Nat) : List Nat := List.replicate 119 (97 + i)

def c8blines : List (List Nat) := (List.range 9).map c8bline

def c8bs : Tl := histFold (tl_init [] []) c8blines

set_option maxRecDepth 100000 in
/-- The state after the eight adds: the first entry (bytes 0..127) has
been evicted and zeroed, `hist_begin` points at the second entry, and
`hist_end` wrapped to 0. -/
theorem c8s_state :
    c8s.hist_begin = 128 ∧ c8s.hist_end = 0 ∧
    c8s.hist_buf = List.replicate 128 0 ++ packHist (c8lines.drop 1) := by
  refine ⟨by decide, by decide, by decide⟩

set_option maxRecDepth 100000 in
/-- Counterexample to the literal C8, both halves.  Within capacity: eight
127-byte lines total exactly the ring capacity (1024 bytes with
terminators), yet after the eighth add the wrap check
`hist_end == hist_begin` fires and evicts the oldest entry, so the walk
yields only the most recent seven lines.  Past capacity: after nine
119-byte lines the ninth entry is stored wrapped around the ring end, and
the walk's first read (`set_line` from `hist_buf + entry`) stops at the
ring boundary, yielding a 64-byte truncation of the newest line — an
entry that matches no submitted line, so the walk neither yields the most
recent lines that fit nor keeps truncated entries unreachable. -/
theorem C8_cex :
    (histSize c8lines = TL_MAX_HISTORY_SIZE ∧
     histWalk c8s (TL_MAX_HISTORY_SIZE + 1) (c8s.hist_end : Int) =
       (c8lines.drop 1).reverse ∧
     histWalk c8s (TL_MAX_HISTORY_SIZE + 1) (c8s.hist_end : Int) ≠
       c8lines.reverse) ∧
    (TL_MAX_HISTORY_SIZE < histSize c8blines ∧
     (histWalk c8bs (TL_MAX_HISTORY_SIZE + 1) (c8bs.hist_end : Int)).headD []
       = (c8bline 8).take 64 ∧
     (∀ l ∈ c8blines,
       (histWalk c8bs (TL_MAX_HISTORY_SIZE + 1) (c8bs.hist_end : Int)).headD []
         ≠ l)) := by
  obtain ⟨hbg, hed, hbf⟩ := c8s_state
  have hwalk : histWalk c8s (TL_MAX_HISTORY_SIZE + 1) ((0 : Nat) : Int) =
      (c8lines.drop 1).reverse :=
    histWalk_off_full c8s (c8lines.drop 1) 128 hbg (by omega) hbf
      (by decide) (by decide) (by decide) (TL_MAX_HISTORY_SIZE + 1) (by decide)
  have hhead : (histWalk c8bs (TL_MAX_HISTORY_SIZE + 1)
      (c8bs.hist_end : Int)).headD [] = (c8bline 8).take 64 := by decide
  refine ⟨?_, by decide, hhead, ?_⟩
  · rw [hed]
    refine ⟨by decide, hwalk, ?_⟩
    rw [hwalk]
    decide
  · rw [hhead]
    decide

/-- C8, amended: starting from an empty history, after N non-empty NUL-free
line submissions whose total byte size (each line plus its NUL terminator)
is strictly below the ring capacity, the repeated previous-entry walk
starting from `hist_end` yields exactly those N lines, newest first. -/
theorem C8_history_ring (s0 : Tl) (lines : List (List Nat))
    (h0b : s0.hist_begin = 0) (h0e : s0.hist_end = 0)
    (h0buf : s0.hist_buf = List.replicate TL_MAX_HISTORY_SIZE 0)
    (hne : ∀ l ∈ lines, l ≠ [] ∧ (0 : Nat) ∉ l)
    (htot : histSize lines < TL_MAX_HISTORY_SIZE) :
    histWalk (histFold s0 lines) (TL_MAX_HISTORY_SIZE + 1)
      ((histFold s0 lines).hist_end : Int) = lines.reverse := by
  obtain ⟨f1, f2, f3⟩ := histFold_layout lines [] s0 h0b (by rw [h0e]; rfl)
    (by rw [h0buf]; rfl) (fun l hl => (hne l hl).2)
    (by have h0 : histSize ([] : List (List Nat)) = 0 := rfl; omega)
  rw [List.nil_append] at f2 f3
  have hwalk := histWalk_take (histFold s0 lines) lines f1 f3 hne htot
    lines.length (TL_MAX_HISTORY_SIZE + 1) le_rfl
    (by have := length_le_histSize lines; omega)
  rw [List.take_length] at hwalk
  rw [f2]
  exact hwalk

/-- Witness for C8 at a concrete two-line history. -/
theorem C8_history_ring_witness :
    ((tl_init [] []).hist_begin = 0 ∧ (tl_init [] []).hist_end = 0 ∧
     (tl_init [] []).hist_buf = List.replicate TL_MAX_HISTORY_SIZE 0 ∧
     (∀ l ∈ [[97, 98], [99]], l ≠ [] ∧ (0 : Nat) ∉ l) ∧
     histSize [[97, 98], [99]] < TL_MAX_HISTORY_SIZE) ∧
    histWalk (histFold (tl_init [] []) [[97, 98], [99]])
      (TL_MAX_HISTORY_SIZE + 1)
      ((histFold (tl_init [] []) [[97, 98], [99]]).hist_end : Int) =
      ([[97, 98], [99]] : List (List Nat)).reverse :=
  ⟨⟨rfl, rfl, rfl, by decide, by decide⟩,
   C8_history_ring (tl_init [] []) [[97, 98], [99]] rfl rfl rfl (by decide)
     (by decide)⟩
